import Mathlib

/-!
Verification of the ROBDD builder (`src/robdd.cpp`).

The C++ program keeps a global node store: a `uniqueTable` mapping
`(variable, low id, high id)` to a node, a `nodeTable` mapping ids to nodes,
the two terminal nodes `BDD_ZERO` / `BDD_ONE`, and a global `variableOrder`
with its reverse index `variableIndex`.  Nodes are heap objects identified by
a monotonically increasing static counter; pointer equality between live
nodes coincides with id equality, so the shallow embedding represents every
node by its integer id and the two `std::map`s by association lists.
-/

namespace Robdd

/-- Association-list lookup, modelling `std::map::find` (first hit wins;
entries are only ever added with fresh keys, or shadow older ones the way
`operator[]` assignment does when we cons in front). -/
def alookup {α β : Type} [DecidableEq α] : List (α × β) → α → Option β
  | [], _ => none
  | (k, v) :: rest, a => if k = a then some v else alookup rest a

theorem alookup_cons {α β : Type} [DecidableEq α] (k : α) (v : β) (l : List (α × β)) (a : α) :
    alookup ((k, v) :: l) a = if k = a then some v else alookup l a := rfl

theorem alookup_mem {α β : Type} [DecidableEq α] {l : List (α × β)} {a : α} {b : β}
    (h : alookup l a = some b) : (a, b) ∈ l := by
  induction l with
  | nil => simp [alookup] at h
  | cons p rest ih =>
    obtain ⟨k, v⟩ := p
    rw [alookup_cons] at h
    by_cases hk : k = a
    · simp [hk] at h
      subst hk; subst h; exact List.mem_cons_self _ _
    · simp [hk] at h
      exact List.mem_cons_of_mem _ (ih h)

theorem alookup_eq_none {α β : Type} [DecidableEq α] {l : List (α × β)} {a : α}
    (h : alookup l a = none) : ∀ b, (a, b) ∉ l := by
  induction l with
  | nil => simp
  | cons p rest ih =>
    obtain ⟨k, v⟩ := p
    rw [alookup_cons] at h
    by_cases hk : k = a
    · simp [hk] at h
    · simp [hk] at h
      intro b hb
      rcases List.mem_cons.mp hb with h1 | h1
      · exact hk (congrArg Prod.fst h1).symm
      · exact ih h b h1

theorem alookup_of_mem {α β : Type} [DecidableEq α] {l : List (α × β)} {a : α} {b : β}
    (hnd : (l.map Prod.fst).Nodup) (h : (a, b) ∈ l) : alookup l a = some b := by
  induction l with
  | nil => simp at h
  | cons p rest ih =>
    obtain ⟨k, v⟩ := p
    simp only [List.map_cons, List.nodup_cons] at hnd
    rcases List.mem_cons.mp h with h1 | h1
    · obtain ⟨h2, h3⟩ := Prod.mk.injEq .. ▸ h1
      rw [alookup_cons]
      simp [h2.symm, h3]
    · rw [alookup_cons]
      by_cases hk : k = a
      · exfalso
        subst hk
        exact hnd.1 (List.mem_map.mpr ⟨(k, b), h1, rfl⟩)
      · simp [hk]
        exact ih hnd.2 h1

theorem alookup_isSome_iff {α β : Type} [DecidableEq α] {l : List (α × β)} {a : α} :
    (alookup l a).isSome ↔ ∃ b, (a, b) ∈ l := by
  constructor
  · intro h
    obtain ⟨b, hb⟩ := Option.isSome_iff_exists.mp h
    exact ⟨b, alookup_mem hb⟩
  · intro ⟨b, hb⟩
    cases h : alookup l a with
    | some c => simp
    | none => exact absurd hb (alookup_eq_none h b)

/-- `struct BDDNode`: a decision node's payload.  Terminal nodes are kept out
of the node table (the C++ allocates them directly with `new`, never through
`makeNode`), so only decision nodes appear here. -/
structure Node where
  var : String
  low : Nat
  high : Nat
deriving DecidableEq, Repr

/-- The global node-store state: the static id counter, the ids of the two
terminal nodes of the current context, and the two tables. -/
structure Store where
  nextId : Nat
  zeroId : Nat
  oneId : Nat
  uniqueTable : List ((String × Nat × Nat) × Nat)
  nodeTable : List (Nat × Node)
deriving DecidableEq, Repr

def findNode (s : Store) (i : Nat) : Option Node := alookup s.nodeTable i

def findUnique (s : Store) (k : String × Nat × Nat) : Option Nat := alookup s.uniqueTable k

/-- Context (re)initialization: `uniqueTable.clear(); nodeTable.clear();
BDD_ZERO = new BDDNode(...); BDD_ONE = new BDDNode(...);` — the static id
counter keeps counting, so the fresh terminals get the next two ids. -/
def mkContext (n : Nat) : Store :=
  { nextId := n + 2, zeroId := n, oneId := n + 1, uniqueTable := [], nodeTable := [] }

/-- `makeNode(var, low, high)`: reduction rule and hash-consing, as in the
source.  `low == high` is pointer equality in C++, which for live nodes is
exactly id equality. -/
def makeNode (v : String) (low high : Nat) (s : Store) : Nat × Store :=
  if low = high then (low, s)
  else
    match findUnique s (v, low, high) with
    | some i => (i, s)
    | none =>
      let i := s.nextId
      (i, { s with
            nextId := i + 1,
            uniqueTable := ((v, low, high), i) :: s.uniqueTable,
            nodeTable := (i, ⟨v, low, high⟩) :: s.nodeTable })

/-- `computeBDDSize()` returns `nodeTable.size()`. -/
def computeBDDSize (s : Store) : Nat := s.nodeTable.length

/-- `variableIndex` is built by `for i: variableIndex[vars[i]] = i`, so a
duplicated name keeps its **last** position.  We build the association list
with later entries in front so that `alookup` finds the last write. -/
def varIndexList : List String → Nat → List (String × Nat)
  | [], _ => []
  | v :: rest, i => varIndexList rest (i + 1) ++ [(v, i)]

/-- `getVariableIndex`: rank of a variable, or `variableOrder.size()` for an
unknown variable (constants sort after all variables). -/
def getVariableIndex (ord : List String) (v : String) : Nat :=
  (alookup (varIndexList ord 0) v).getD ord.length

def isTerminal (s : Store) (i : Nat) : Prop := i = s.zeroId ∨ i = s.oneId

instance (s : Store) (i : Nat) : Decidable (isTerminal s i) := by
  unfold isTerminal; infer_instance

/-- `valueOf(n)`: `n == BDD_ONE`. -/
def valueOf (s : Store) (i : Nat) : Bool := i = s.oneId

/-- A node reference that exists in the current context: one of the two
terminals, or a decision node recorded in the node table. -/
def ValidRef (s : Store) (i : Nat) : Prop :=
  i = s.zeroId ∨ i = s.oneId ∨ (findNode s i).isSome

instance (s : Store) (i : Nat) : Decidable (ValidRef s i) := by
  unfold ValidRef; infer_instance

/-- Fuel-indexed evaluation of the diagram rooted at a node id: descend to
`low` when the assignment makes the node's variable `0` and to `high` when it
makes it `1`, terminating at the terminals.  This is the evaluation notion of
the spec's truth-table round-trip property; the fuel is a technical device
(children of a stored node always have smaller ids, so `i + 1` fuel is always
enough — see `evalN_fuel`). -/
def evalN (s : Store) (a : String → Bool) : Nat → Nat → Bool
  | 0, _ => false
  | fuel + 1, i =>
    if i = s.zeroId then false
    else if i = s.oneId then true
    else
      match findNode s i with
      | none => false
      | some n => if a n.var then evalN s a fuel n.high else evalN s a fuel n.low

/-- Diagram evaluation at a node id. -/
def evalB (s : Store) (i : Nat) (a : String → Bool) : Bool := evalN s a (i + 1) i

/-- All children recorded in the node table have ids smaller than their
parent (children exist before the parent is allocated). -/
def ChildLt (s : Store) : Prop :=
  ∀ p ∈ s.nodeTable, p.2.low < p.1 ∧ p.2.high < p.1

theorem evalN_fuel (s : Store) (a : String → Bool) (hc : ChildLt s) :
    ∀ fuel i, i < fuel → evalN s a fuel i = evalB s i a := by
  intro fuel
  induction fuel using Nat.strong_induction_on with
  | _ fuel ih =>
    intro i hi
    match fuel, hi with
    | fuel + 1, hi =>
      show evalN s a (fuel + 1) i = evalN s a (i + 1) i
      simp only [evalN]
      cases hz : decide (i = s.zeroId) with
      | true => simp [of_decide_eq_true hz]
      | false =>
        simp only [of_decide_eq_false hz, if_false]
        cases ho : decide (i = s.oneId) with
        | true => simp [of_decide_eq_true ho]
        | false =>
          simp only [of_decide_eq_false ho, if_false]
          cases hn : findNode s i with
          | none => rfl
          | some n =>
            have hmem := alookup_mem hn
            have hlt := hc _ hmem
            have hlow : evalN s a fuel n.low = evalB s n.low a :=
              ih fuel (Nat.lt_succ_self fuel) n.low (Nat.lt_of_lt_of_le hlt.1 (Nat.lt_succ_iff.mp hi))
            have hhigh : evalN s a fuel n.high = evalB s n.high a :=
              ih fuel (Nat.lt_succ_self fuel) n.high (Nat.lt_of_lt_of_le hlt.2 (Nat.lt_succ_iff.mp hi))
            have hlow2 : evalN s a i n.low = evalB s n.low a :=
              ih i hi n.low hlt.1
            have hhigh2 : evalN s a i n.high = evalB s n.high a :=
              ih i hi n.high hlt.2
            show (if a n.var then evalN s a fuel n.high else evalN s a fuel n.low)
                = (if a n.var then evalN s a i n.high else evalN s a i n.low)
            rw [hlow, hhigh, hlow2, hhigh2]

theorem evalB_zero (s : Store) (a : String → Bool) : evalB s s.zeroId a = false := by
  simp [evalB, evalN]

theorem evalB_one (s : Store) (a : String → Bool) (h : s.zeroId ≠ s.oneId) :
    evalB s s.oneId a = true := by
  simp [evalB, evalN, Ne.symm h]

theorem evalB_node (s : Store) (a : String → Bool) (hc : ChildLt s) {i : Nat} {n : Node}
    (hz : i ≠ s.zeroId) (ho : i ≠ s.oneId) (hn : findNode s i = some n) :
    evalB s i a = if a n.var then evalB s n.high a else evalB s n.low a := by
  have hlt := hc _ (alookup_mem hn)
  show evalN s a (i + 1) i = _
  simp only [evalN, hz, ho, if_false, hn]
  rw [evalN_fuel s a hc i n.high hlt.2, evalN_fuel s a hc i n.low hlt.1]

theorem evalB_terminal (s : Store) (a : String → Bool) (h01 : s.zeroId ≠ s.oneId)
    {i : Nat} (h : isTerminal s i) : evalB s i a = valueOf s i := by
  rcases h with h | h
  · subst h
    rw [evalB_zero]
    simp [valueOf, h01]
  · subst h
    rw [evalB_one s a h01]
    simp [valueOf]

theorem alookup_append {α β : Type} [DecidableEq α] (l₁ l₂ : List (α × β)) (a : α) :
    alookup (l₁ ++ l₂) a =
      match alookup l₁ a with
      | some b => some b
      | none => alookup l₂ a := by
  induction l₁ with
  | nil => simp [alookup]
  | cons p rest ih =>
    obtain ⟨k, v⟩ := p
    by_cases hk : k = a
    · simp [alookup_cons, hk]
    · simp only [List.cons_append, alookup_cons, hk, if_false]
      exact ih

theorem varIndexList_some {l : List String} : ∀ {i v j},
    alookup (varIndexList l i) v = some j → v ∈ l ∧ i ≤ j ∧ j < i + l.length := by
  induction l with
  | nil => intro i v j h; simp [varIndexList, alookup] at h
  | cons x rest ih =>
    intro i v j h
    rw [varIndexList, alookup_append] at h
    cases hr : alookup (varIndexList rest (i + 1)) v with
    | some j' =>
      rw [hr] at h
      obtain rfl : j' = j := by simpa using h
      obtain ⟨h1, h2, h3⟩ := ih hr
      refine ⟨List.mem_cons_of_mem _ h1, by omega, by simp only [List.length_cons]; omega⟩
    | none =>
      rw [hr] at h
      simp only [alookup_cons, alookup] at h
      by_cases hx : x = v
      · simp only [hx, if_true] at h
        obtain rfl : i = j := by simpa using h
        exact ⟨hx ▸ List.mem_cons_self _ _, Nat.le_refl _, by simp⟩
      · simp [hx] at h

theorem varIndexList_isSome {l : List String} : ∀ {i v},
    v ∈ l → (alookup (varIndexList l i) v).isSome := by
  induction l with
  | nil => simp
  | cons x rest ih =>
    intro i v hv
    rw [varIndexList, alookup_append]
    cases hr : alookup (varIndexList rest (i + 1)) v with
    | some j => simp
    | none =>
      rcases List.mem_cons.mp hv with h | h
      · simp [alookup_cons, h.symm]
      · have := ih (i := i + 1) h
        rw [hr] at this
        simp at this

theorem varIndexList_inj {l : List String} : ∀ {i v w j},
    alookup (varIndexList l i) v = some j → alookup (varIndexList l i) w = some j → v = w := by
  induction l with
  | nil => intro i v w j h; simp [varIndexList, alookup] at h
  | cons x rest ih =>
    intro i v w j hv hw
    rw [varIndexList, alookup_append] at hv hw
    cases hrv : alookup (varIndexList rest (i + 1)) v with
    | some jv =>
      rw [hrv] at hv
      obtain rfl : jv = j := by simpa using hv
      cases hrw : alookup (varIndexList rest (i + 1)) w with
      | some jw =>
        rw [hrw] at hw
        obtain rfl : jw = jv := by simpa using hw
        exact ih hrv hrw
      | none =>
        rw [hrw] at hw
        simp only [alookup_cons, alookup] at hw
        by_cases hx : x = w
        · simp only [hx, if_true] at hw
          obtain rfl : i = jv := by simpa using hw
          have := (varIndexList_some hrv).2.1
          omega
        · simp [hx] at hw
    | none =>
      rw [hrv] at hv
      simp only [alookup_cons, alookup] at hv
      by_cases hx : x = v
      · simp only [hx, if_true] at hv
        obtain rfl : i = j := by simpa using hv
        cases hrw : alookup (varIndexList rest (i + 1)) w with
        | some jw =>
          rw [hrw] at hw
          obtain rfl : jw = i := by simpa using hw
          have := (varIndexList_some hrw).2.1
          omega
        | none =>
          rw [hrw] at hw
          simp only [alookup_cons, alookup] at hw
          by_cases hy : x = w
          · rw [hx] at hy; exact hy
          · simp [hy] at hw
      · simp [hx] at hv

theorem getVariableIndex_lt (ord : List String) {v : String} (h : v ∈ ord) :
    getVariableIndex ord v < ord.length := by
  unfold getVariableIndex
  cases hl : alookup (varIndexList ord 0) v with
  | some j =>
    have := (varIndexList_some hl).2.2
    simpa using this
  | none =>
    have := varIndexList_isSome (i := 0) h
    rw [hl] at this
    simp at this

theorem getVariableIndex_eq_len (ord : List String) {v : String} (h : v ∉ ord) :
    getVariableIndex ord v = ord.length := by
  unfold getVariableIndex
  cases hl : alookup (varIndexList ord 0) v with
  | some j => exact absurd (varIndexList_some hl).1 h
  | none => rfl

theorem getVariableIndex_le (ord : List String) (v : String) :
    getVariableIndex ord v ≤ ord.length := by
  by_cases h : v ∈ ord
  · exact Nat.le_of_lt (getVariableIndex_lt ord h)
  · exact Nat.le_of_eq (getVariableIndex_eq_len ord h)

/-- The reverse index map `variableIndex` is injective on known variables:
every stored rank is a distinct position of the order, so two known variables
with equal rank are the same variable (no duplicate-freeness needed). -/
theorem getVariableIndex_inj (ord : List String) {v w : String}
    (hv : v ∈ ord) (hw : w ∈ ord)
    (h : getVariableIndex ord v = getVariableIndex ord w) : v = w := by
  unfold getVariableIndex at h
  cases hlv : alookup (varIndexList ord 0) v with
  | none =>
    have := varIndexList_isSome (i := 0) hv
    rw [hlv] at this; simp at this
  | some jv =>
    cases hlw : alookup (varIndexList ord 0) w with
    | none =>
      have := varIndexList_isSome (i := 0) hw
      rw [hlw] at this; simp at this
    | some jw =>
      rw [hlv, hlw] at h
      simp only [Option.getD_some] at h
      subst h
      exact varIndexList_inj hlv hlw

/-! ### Store extension and the context invariant -/

/-- `s'` extends `s`: same terminals, the id counter has not decreased, and
every table entry of `s` is still present (the C++ only ever adds entries
within a context). -/
def Ext (s s' : Store) : Prop :=
  s.zeroId = s'.zeroId ∧ s.oneId = s'.oneId ∧ s.nextId ≤ s'.nextId ∧
  (∀ k i, findUnique s k = some i → findUnique s' k = some i) ∧
  (∀ i, i < s.nextId → findNode s' i = findNode s i)

theorem Ext.refl (s : Store) : Ext s s :=
  ⟨rfl, rfl, Nat.le_refl _, fun _ _ h => h, fun _ _ => rfl⟩

theorem Ext.trans {s₁ s₂ s₃ : Store} (h1 : Ext s₁ s₂) (h2 : Ext s₂ s₃) : Ext s₁ s₃ :=
  ⟨h1.1.trans h2.1, h1.2.1.trans h2.2.1, h1.2.2.1.trans h2.2.2.1,
   fun k i h => h2.2.2.2.1 k i (h1.2.2.2.1 k i h),
   fun i hi => ((h2.2.2.2.2 i (Nat.lt_of_lt_of_le hi h1.2.2.1)).trans (h1.2.2.2.2 i hi))⟩

/-- The invariant every context of the C++ program maintains: terminal ids
are distinct, fixed, and not in the node table; table keys are duplicate
free; every node's id is below the counter and above the terminals; children
precede their parent, are distinct (reduction), exist (validity), and carry a
strictly larger rank (ordering); node variables are known and nonempty; and
the unique table is exactly the hash-consing index of the node table. -/
structure Inv (ord : List String) (s : Store) : Prop where
  zero_ne_one : s.zeroId ≠ s.oneId
  zero_lt : s.zeroId < s.nextId
  one_lt : s.oneId < s.nextId
  nodeKeys : (s.nodeTable.map Prod.fst).Nodup
  uniqueKeys : (s.uniqueTable.map Prod.fst).Nodup
  not_zero : ∀ p ∈ s.nodeTable, p.1 ≠ s.zeroId
  not_one : ∀ p ∈ s.nodeTable, p.1 ≠ s.oneId
  zero_lt_node : ∀ p ∈ s.nodeTable, s.zeroId < p.1
  one_lt_node : ∀ p ∈ s.nodeTable, s.oneId < p.1
  id_lt : ∀ p ∈ s.nodeTable, p.1 < s.nextId
  child_lt : ∀ p ∈ s.nodeTable, p.2.low < p.1 ∧ p.2.high < p.1
  reduced : ∀ p ∈ s.nodeTable, p.2.low ≠ p.2.high
  child_valid : ∀ p ∈ s.nodeTable, ValidRef s p.2.low ∧ ValidRef s p.2.high
  var_known : ∀ p ∈ s.nodeTable, p.2.var ∈ ord
  var_ne_empty : ∀ p ∈ s.nodeTable, p.2.var ≠ ""
  ordered : ∀ p ∈ s.nodeTable, ∀ q ∈ s.nodeTable,
    (q.1 = p.2.low ∨ q.1 = p.2.high) →
      getVariableIndex ord p.2.var < getVariableIndex ord q.2.var
  unique_sound : ∀ e ∈ s.uniqueTable,
    (e.2, Node.mk e.1.1 e.1.2.1 e.1.2.2) ∈ s.nodeTable
  node_complete : ∀ p ∈ s.nodeTable, ((p.2.var, p.2.low, p.2.high), p.1) ∈ s.uniqueTable

/-- Every reference that exists in a context has an id below the counter. -/
theorem ValidRef_lt {ord : List String} {s : Store} (hInv : Inv ord s) {i : Nat}
    (hv : ValidRef s i) : i < s.nextId := by
  rcases hv with hv | hv | hv
  · exact hv ▸ hInv.zero_lt
  · exact hv ▸ hInv.one_lt
  · obtain ⟨n, hn⟩ := Option.isSome_iff_exists.mp hv
    exact hInv.id_lt _ (alookup_mem hn)

theorem Ext.validRef {ord : List String} {s s' : Store} (hInv : Inv ord s) (h : Ext s s')
    {i : Nat} (hv : ValidRef s i) : ValidRef s' i := by
  rcases hv with hv | hv | hv
  · exact Or.inl (hv.trans h.1)
  · exact Or.inr (Or.inl (hv.trans h.2.1))
  · have hlt : i < s.nextId := ValidRef_lt hInv (Or.inr (Or.inr hv))
    exact Or.inr (Or.inr (by rw [h.2.2.2.2 i hlt]; exact hv))

theorem alookup_none_of_keys {α β : Type} [DecidableEq α] {l : List (α × β)} {a : α}
    (h : ∀ p ∈ l, p.1 ≠ a) : alookup l a = none := by
  induction l with
  | nil => rfl
  | cons p rest ih =>
    rw [alookup_cons]
    have hp := h p (List.mem_cons_self _ _)
    simp only [hp, if_false]
    exact ih fun q hq => h q (List.mem_cons_of_mem _ hq)

theorem findNode_zero {ord : List String} {s : Store} (hInv : Inv ord s) :
    findNode s s.zeroId = none :=
  alookup_none_of_keys hInv.not_zero

theorem findNode_one {ord : List String} {s : Store} (hInv : Inv ord s) :
    findNode s s.oneId = none :=
  alookup_none_of_keys hInv.not_one

/-- Rank of the variable at the top of a reference, as `apply` computes it:
terminals (and ids outside the node table) rank after all variables. -/
def topIdx (ord : List String) (s : Store) (i : Nat) : Nat :=
  match findNode s i with
  | some n => getVariableIndex ord n.var
  | none => ord.length

theorem topIdx_le (ord : List String) (s : Store) (i : Nat) :
    topIdx ord s i ≤ ord.length := by
  unfold topIdx
  cases findNode s i with
  | some n => exact getVariableIndex_le ord n.var
  | none => exact Nat.le_refl _

theorem topIdx_ext {ord : List String} {s s' : Store} (h : Ext s s') {i : Nat}
    (hi : i < s.nextId) : topIdx ord s' i = topIdx ord s i := by
  unfold topIdx
  rw [h.2.2.2.2 i hi]

/-- Evaluation only ever touches ids below the counter, so a store extension
does not change the value of any pre-existing diagram. -/
theorem evalN_ext {s s' : Store} (hc : ChildLt s) (h : Ext s s') (a : String → Bool) :
    ∀ fuel i, i < s.nextId → evalN s' a fuel i = evalN s a fuel i := by
  intro fuel
  induction fuel with
  | zero => intro i _; rfl
  | succ fuel ih =>
    intro i hi
    show evalN s' a (fuel + 1) i = evalN s a (fuel + 1) i
    simp only [evalN, ← h.1, ← h.2.1, h.2.2.2.2 i hi]
    cases hn : findNode s i with
    | none => rfl
    | some n =>
      have hlt := hc _ (alookup_mem hn)
      show (if i = s.zeroId then false else if i = s.oneId then true
            else if a n.var then evalN s' a fuel n.high else evalN s' a fuel n.low) = _
      rw [ih n.high (Nat.lt_trans hlt.2 hi), ih n.low (Nat.lt_trans hlt.1 hi)]

theorem evalB_ext {s s' : Store} (hc : ChildLt s) (h : Ext s s') (a : String → Bool)
    {i : Nat} (hi : i < s.nextId) : evalB s' i a = evalB s i a :=
  evalN_ext hc h a (i + 1) i hi

theorem Inv.childLt {ord : List String} {s : Store} (h : Inv ord s) : ChildLt s :=
  h.child_lt

theorem Inv.findNode_mem {ord : List String} {s : Store} (h : Inv ord s)
    {i : Nat} {n : Node} (hm : (i, n) ∈ s.nodeTable) : findNode s i = some n :=
  alookup_of_mem h.nodeKeys hm

theorem Inv.findUnique_mem {ord : List String} {s : Store} (h : Inv ord s)
    {k : String × Nat × Nat} {i : Nat} (hm : (k, i) ∈ s.uniqueTable) : findUnique s k = some i :=
  alookup_of_mem h.uniqueKeys hm

theorem Inv.mkContext (ord : List String) (n : Nat) : Inv ord (mkContext n) := by
  constructor <;> simp [Robdd.mkContext, findNode, findUnique, alookup]

/-- Master specification of `makeNode` in a well-formed context, when called
the way `apply`, `bddNot` and input initialization call it (children valid
and of strictly larger rank): the store is extended keeping the invariant,
and the returned node is a valid reference whose top rank is at least
`rank v` and which denotes `if v then high else low`. -/
theorem makeNode_spec (ord : List String) {s : Store} (hInv : Inv ord s)
    {v : String} {lo hi : Nat} (hv : v ∈ ord) (hne : v ≠ "")
    (hlo : ValidRef s lo) (hhi : ValidRef s hi)
    (hol : getVariableIndex ord v < topIdx ord s lo)
    (hoh : getVariableIndex ord v < topIdx ord s hi) :
    Ext s (makeNode v lo hi s).2 ∧ Inv ord (makeNode v lo hi s).2 ∧
    ValidRef (makeNode v lo hi s).2 (makeNode v lo hi s).1 ∧
    getVariableIndex ord v ≤ topIdx ord (makeNode v lo hi s).2 (makeNode v lo hi s).1 ∧
    ∀ a, evalB (makeNode v lo hi s).2 (makeNode v lo hi s).1 a =
      if a v then evalB s hi a else evalB s lo a := by
  by_cases hlh : lo = hi
  · subst hlh
    have hmk : makeNode v lo lo s = (lo, s) := by simp [makeNode]
    rw [hmk]
    exact ⟨Ext.refl s, hInv, hlo, Nat.le_of_lt hol, fun a => (ite_self _).symm⟩
  · cases hu : findUnique s (v, lo, hi) with
    | some i =>
      have hmk : makeNode v lo hi s = (i, s) := by simp [makeNode, hlh, hu]
      rw [hmk]
      have hmem : ((v, lo, hi), i) ∈ s.uniqueTable := alookup_mem hu
      have hnode : (i, Node.mk v lo hi) ∈ s.nodeTable := hInv.unique_sound _ hmem
      have hfind : findNode s i = some ⟨v, lo, hi⟩ := hInv.findNode_mem hnode
      refine ⟨Ext.refl s, hInv, Or.inr (Or.inr (by rw [hfind]; rfl)), ?_, ?_⟩
      · unfold topIdx
        rw [hfind]
      · intro a
        have hz : i ≠ s.zeroId := hInv.not_zero _ hnode
        have ho : i ≠ s.oneId := hInv.not_one _ hnode
        rw [evalB_node s a hInv.childLt hz ho hfind]
    | none =>
      have hmk : makeNode v lo hi s =
          (s.nextId, { s with
                       nextId := s.nextId + 1,
                       uniqueTable := ((v, lo, hi), s.nextId) :: s.uniqueTable,
                       nodeTable := (s.nextId, ⟨v, lo, hi⟩) :: s.nodeTable }) := by
        simp [makeNode, hlh, hu]
      rw [hmk]
      have hlolt : lo < s.nextId := ValidRef_lt hInv hlo
      have hhilt : hi < s.nextId := ValidRef_lt hInv hhi
      set s' : Store := { s with
                          nextId := s.nextId + 1,
                          uniqueTable := ((v, lo, hi), s.nextId) :: s.uniqueTable,
                          nodeTable := (s.nextId, ⟨v, lo, hi⟩) :: s.nodeTable } with hs'
      have hExt : Ext s s' := by
        refine ⟨rfl, rfl, Nat.le_succ _, ?_, ?_⟩
        · intro k i hk
          show alookup (((v, lo, hi), s.nextId) :: s.uniqueTable) k = some i
          rw [alookup_cons]
          by_cases hkk : (v, lo, hi) = k
          · rw [← hkk] at hk
            rw [hu] at hk
            exact absurd hk (by simp)
          · simp only [hkk, if_false]
            exact hk
        · intro i hilt
          show alookup ((s.nextId, Node.mk v lo hi) :: s.nodeTable) i = findNode s i
          rw [alookup_cons]
          have : s.nextId ≠ i := Nat.ne_of_gt hilt
          simp only [this, if_false]
          rfl
      have hfind' : findNode s' s.nextId = some ⟨v, lo, hi⟩ := by
        show alookup ((s.nextId, Node.mk v lo hi) :: s.nodeTable) s.nextId = _
        rw [alookup_cons]
        simp
      have hmem' : ∀ {p : Nat × Node}, p ∈ s'.nodeTable →
          p = (s.nextId, ⟨v, lo, hi⟩) ∨ p ∈ s.nodeTable := fun hp => List.mem_cons.mp hp
      have htop : ∀ {x : Nat}, ValidRef s x → getVariableIndex ord v < topIdx ord s x →
          ∀ q ∈ s.nodeTable, q.1 = x → getVariableIndex ord v < getVariableIndex ord q.2.var := by
        intro x hx hltx q hq hqx
        have hfq : findNode s q.1 = some q.2 :=
          hInv.findNode_mem (by rw [Prod.mk.eta]; exact hq)
        rw [hqx] at hfq
        unfold topIdx at hltx
        rw [hfq] at hltx
        exact hltx
      have hInv' : Inv ord s' := by
        constructor
        · exact hInv.zero_ne_one
        · exact Nat.lt_succ_of_lt hInv.zero_lt
        · exact Nat.lt_succ_of_lt hInv.one_lt
        · show ((s.nextId, Node.mk v lo hi) :: s.nodeTable).map Prod.fst |>.Nodup
          rw [List.map_cons]
          refine List.nodup_cons.mpr ⟨?_, hInv.nodeKeys⟩
          intro hc
          obtain ⟨p, hp, hp2⟩ := List.mem_map.mp hc
          exact absurd (hp2 ▸ hInv.id_lt p hp) (Nat.lt_irrefl _)
        · show (((v, lo, hi), s.nextId) :: s.uniqueTable).map Prod.fst |>.Nodup
          rw [List.map_cons]
          refine List.nodup_cons.mpr ⟨?_, hInv.uniqueKeys⟩
          intro hc
          obtain ⟨p, hp, hp2⟩ := List.mem_map.mp hc
          have hp2' : p.1 = (v, lo, hi) := hp2
          have : findUnique s (v, lo, hi) = some p.2 :=
            hInv.findUnique_mem (by rw [← hp2', Prod.mk.eta]; exact hp)
          rw [hu] at this
          exact absurd this (by simp)
        · intro p hp
          rcases hmem' hp with rfl | hp
          · exact Nat.ne_of_gt hInv.zero_lt
          · exact hInv.not_zero p hp
        · intro p hp
          rcases hmem' hp with rfl | hp
          · exact Nat.ne_of_gt hInv.one_lt
          · exact hInv.not_one p hp
        · intro p hp
          rcases hmem' hp with rfl | hp
          · exact hInv.zero_lt
          · exact hInv.zero_lt_node p hp
        · intro p hp
          rcases hmem' hp with rfl | hp
          · exact hInv.one_lt
          · exact hInv.one_lt_node p hp
        · intro p hp
          rcases hmem' hp with rfl | hp
          · exact Nat.lt_succ_self _
          · exact Nat.lt_succ_of_lt (hInv.id_lt p hp)
        · intro p hp
          rcases hmem' hp with rfl | hp
          · exact ⟨hlolt, hhilt⟩
          · exact hInv.child_lt p hp
        · intro p hp
          rcases hmem' hp with rfl | hp
          · exact hlh
          · exact hInv.reduced p hp
        · intro p hp
          rcases hmem' hp with rfl | hp
          · exact ⟨Ext.validRef hInv hExt hlo, Ext.validRef hInv hExt hhi⟩
          · have := hInv.child_valid p hp
            exact ⟨Ext.validRef hInv hExt this.1, Ext.validRef hInv hExt this.2⟩
        · intro p hp
          rcases hmem' hp with rfl | hp
          · exact hv
          · exact hInv.var_known p hp
        · intro p hp
          rcases hmem' hp with rfl | hp
          · exact hne
          · exact hInv.var_ne_empty p hp
        · intro p hp q hq hpq
          rcases hmem' hp with rfl | hp
          · rcases hmem' hq with rfl | hq
            · exfalso
              rcases hpq with h1 | h1
              · have h2 : s.nextId = lo := h1
                omega
              · have h2 : s.nextId = hi := h1
                omega
            · rcases hpq with h1 | h1
              · exact htop hlo hol q hq h1
              · exact htop hhi hoh q hq h1
          · rcases hmem' hq with rfl | hq
            · exfalso
              have hplt := hInv.child_lt p hp
              have hidlt := hInv.id_lt p hp
              rcases hpq with h1 | h1 <;> omega
            · exact hInv.ordered p hp q hq hpq
        · intro e he
          rcases List.mem_cons.mp he with rfl | he
          · exact List.mem_cons_self _ _
          · exact List.mem_cons_of_mem _ (hInv.unique_sound e he)
        · intro p hp
          rcases hmem' hp with rfl | hp
          · exact List.mem_cons_self _ _
          · exact List.mem_cons_of_mem _ (hInv.node_complete p hp)
      refine ⟨hExt, hInv', Or.inr (Or.inr (by rw [hfind']; rfl)), ?_, ?_⟩
      · unfold topIdx
        rw [hfind']
      · intro a
        have hz : s.nextId ≠ s'.zeroId := Nat.ne_of_gt hInv.zero_lt
        have hon : s.nextId ≠ s'.oneId := Nat.ne_of_gt hInv.one_lt
        rw [evalB_node s' a hInv'.childLt hz hon hfind']
        show (if a v then evalB s' hi a else evalB s' lo a) = _
        rw [evalB_ext hInv.childLt hExt a hhilt, evalB_ext hInv.childLt hExt a hlolt]

/-! ### The `apply` engine -/

/-- The five `OpFunc` lambdas of the source. -/
def AndOp : Bool → Bool → Bool := fun a b => a && b

def OrOp : Bool → Bool → Bool := fun a b => a || b

def XorOp : Bool → Bool → Bool := fun a b => Bool.xor a b

def NandOp : Bool → Bool → Bool := fun a b => !(a && b)

def NorOp : Bool → Bool → Bool := fun a b => !(a || b)

/-- `i->variable` for a decision node.  The `none` branch models reading
through a dangling id, which cannot happen in a well-formed context. -/
def nodeVar (s : Store) (i : Nat) : String :=
  match findNode s i with
  | some n => n.var
  | none => ""

/-- `i->low` (dangling reads modelled arbitrarily, unreachable under `Inv`). -/
def nodeLow (s : Store) (i : Nat) : Nat :=
  match findNode s i with
  | some n => n.low
  | none => s.zeroId

/-- `i->high` (dangling reads modelled arbitrarily, unreachable under `Inv`). -/
def nodeHigh (s : Store) (i : Nat) : Nat :=
  match findNode s i with
  | some n => n.high
  | none => s.zeroId

/-- `f_var` as `apply` computes it: `isTerminal(f) ? "" : f->variable`. -/
def topVarOf (s : Store) (i : Nat) : String :=
  if isTerminal s i then "" else nodeVar s i

/-- `f_index` as `apply` computes it:
`f_var.empty() ? variableOrder.size() : getVariableIndex(f_var)`. -/
def rankOf (ord : List String) (s : Store) (i : Nat) : Nat :=
  if topVarOf s i = "" then ord.length else getVariableIndex ord (topVarOf s i)

/-- `apply(f, g, op)` with explicit fuel.  The C++ recursion terminates
because each recursive call passes at least one strictly smaller node id, so
`f + g + 1` fuel always suffices in a well-formed context (`applyN_spec`);
the fuel-exhausted result is never reached there. -/
def applyN (ord : List String) (op : Bool → Bool → Bool) :
    Nat → Store → Nat → Nat → Nat × Store
  | 0, s, _, _ => (s.zeroId, s)
  | fuel + 1, s, f, g =>
    if isTerminal s f ∧ isTerminal s g then
      (if op (valueOf s f) (valueOf s g) then s.oneId else s.zeroId, s)
    else if rankOf ord s f < rankOf ord s g then
      let r1 := applyN ord op fuel s (nodeLow s f) g
      let r2 := applyN ord op fuel r1.2 (nodeHigh s f) g
      makeNode (topVarOf s f) r1.1 r2.1 r2.2
    else if rankOf ord s g < rankOf ord s f then
      let r1 := applyN ord op fuel s f (nodeLow s g)
      let r2 := applyN ord op fuel r1.2 f (nodeHigh s g)
      makeNode (topVarOf s g) r1.1 r2.1 r2.2
    else
      let r1 := applyN ord op fuel s (nodeLow s f) (nodeLow s g)
      let r2 := applyN ord op fuel r1.2 (nodeHigh s f) (nodeHigh s g)
      makeNode (topVarOf s f) r1.1 r2.1 r2.2

/-- `apply(f, g, op)`: the fuel `f + g + 1` always suffices. -/
def applyC (ord : List String) (s : Store) (f g : Nat) (op : Bool → Bool → Bool) :
    Nat × Store :=
  applyN ord op (f + g + 1) s f g

theorem topIdx_terminal {ord : List String} {s : Store} (hInv : Inv ord s) {i : Nat}
    (h : isTerminal s i) : topIdx ord s i = ord.length := by
  unfold topIdx
  rcases h with h | h
  · rw [h, findNode_zero hInv]
  · rw [h, findNode_one hInv]

theorem rankOf_eq {ord : List String} {s : Store} (hInv : Inv ord s) {i : Nat}
    (hv : ValidRef s i) : rankOf ord s i = topIdx ord s i := by
  unfold rankOf topVarOf
  by_cases ht : isTerminal s i
  · simp only [ht, if_true, if_pos rfl]
    exact (topIdx_terminal hInv ht).symm
  · simp only [ht, if_false]
    rcases hv with hv | hv | hv
    · exact absurd (Or.inl hv) ht
    · exact absurd (Or.inr hv) ht
    · obtain ⟨n, hn⟩ := Option.isSome_iff_exists.mp hv
      have hne : n.var ≠ "" := hInv.var_ne_empty _ (alookup_mem hn)
      unfold nodeVar topIdx
      rw [hn]
      simp [hne]

theorem rankOf_le (ord : List String) (s : Store) (i : Nat) :
    rankOf ord s i ≤ ord.length := by
  unfold rankOf
  by_cases h : topVarOf s i = ""
  · simp [h]
  · simp only [h, if_false]
    exact getVariableIndex_le ord _

theorem topIdx_node {ord : List String} {s : Store} {i : Nat} {n : Node}
    (hn : findNode s i = some n) : topIdx ord s i = getVariableIndex ord n.var := by
  unfold topIdx
  rw [hn]

theorem node_rank_lt_len {ord : List String} {s : Store} (hInv : Inv ord s) {i : Nat}
    {n : Node} (hn : findNode s i = some n) : getVariableIndex ord n.var < ord.length :=
  getVariableIndex_lt ord (hInv.var_known _ (alookup_mem hn))

theorem child_valid_of_find {ord : List String} {s : Store} (hInv : Inv ord s) {i : Nat}
    {n : Node} (hn : findNode s i = some n) : ValidRef s n.low ∧ ValidRef s n.high :=
  hInv.child_valid _ (alookup_mem hn)

theorem child_lt_of_find {ord : List String} {s : Store} (hInv : Inv ord s) {i : Nat}
    {n : Node} (hn : findNode s i = some n) : n.low < i ∧ n.high < i :=
  hInv.child_lt _ (alookup_mem hn)

/-- Ordering invariant, read through `findNode`: children rank strictly
after their parent. -/
theorem child_topIdx {ord : List String} {s : Store} (hInv : Inv ord s) {i : Nat}
    {n : Node} (hn : findNode s i = some n) :
    getVariableIndex ord n.var < topIdx ord s n.low ∧
    getVariableIndex ord n.var < topIdx ord s n.high := by
  have hmem := alookup_mem hn
  constructor
  · unfold topIdx
    cases hl : findNode s n.low with
    | none => exact node_rank_lt_len hInv hn
    | some m => exact hInv.ordered _ hmem _ (alookup_mem hl) (Or.inl rfl)
  · unfold topIdx
    cases hl : findNode s n.high with
    | none => exact node_rank_lt_len hInv hn
    | some m => exact hInv.ordered _ hmem _ (alookup_mem hl) (Or.inr rfl)

theorem findNode_of_nonterminal {s : Store} {i : Nat} (hv : ValidRef s i)
    (h : ¬isTerminal s i) : ∃ n, findNode s i = some n := by
  rcases hv with hv | hv | hv
  · exact absurd (Or.inl hv) h
  · exact absurd (Or.inr hv) h
  · exact Option.isSome_iff_exists.mp hv

theorem nodeVar_eq {s : Store} {i : Nat} {n : Node} (hn : findNode s i = some n) :
    nodeVar s i = n.var := by unfold nodeVar; rw [hn]

theorem nodeLow_eq {s : Store} {i : Nat} {n : Node} (hn : findNode s i = some n) :
    nodeLow s i = n.low := by unfold nodeLow; rw [hn]

theorem nodeHigh_eq {s : Store} {i : Nat} {n : Node} (hn : findNode s i = some n) :
    nodeHigh s i = n.high := by unfold nodeHigh; rw [hn]

theorem isTerminal_not_node {ord : List String} {s : Store} (hInv : Inv ord s) {i : Nat}
    {n : Node} (hn : findNode s i = some n) : ¬isTerminal s i := by
  intro ht
  rcases ht with ht | ht
  · rw [ht, findNode_zero hInv] at hn
    simp at hn
  · rw [ht, findNode_one hInv] at hn
    simp at hn

theorem topVarOf_node {ord : List String} {s : Store} (hInv : Inv ord s) {i : Nat}
    {n : Node} (hn : findNode s i = some n) : topVarOf s i = n.var := by
  unfold topVarOf
  rw [if_neg (isTerminal_not_node hInv hn), nodeVar_eq hn]

/-- Master specification of `apply` in a well-formed context: the store is
only extended and stays well-formed, the result is a valid node of top rank
at least the smaller operand rank, and it denotes `op` applied to the
operand denotations (soundness).  The fuel only needs to exceed `f + g`. -/
theorem applyN_spec (ord : List String) (op : Bool → Bool → Bool) :
    ∀ (fuel : Nat) (s : Store) (f g : Nat), Inv ord s → ValidRef s f → ValidRef s g →
      f + g < fuel →
      Ext s (applyN ord op fuel s f g).2 ∧
      Inv ord (applyN ord op fuel s f g).2 ∧
      ValidRef (applyN ord op fuel s f g).2 (applyN ord op fuel s f g).1 ∧
      min (topIdx ord s f) (topIdx ord s g) ≤
        topIdx ord (applyN ord op fuel s f g).2 (applyN ord op fuel s f g).1 ∧
      ∀ a, evalB (applyN ord op fuel s f g).2 (applyN ord op fuel s f g).1 a =
        op (evalB s f a) (evalB s g a) := by
  intro fuel
  induction fuel with
  | zero => intro s f g _ _ _ hlt; omega
  | succ fuel ih =>
    intro s f g hInv hf hg hfuel
    by_cases hterm : isTerminal s f ∧ isTerminal s g
    · have heq : applyN ord op (fuel + 1) s f g =
          (if op (valueOf s f) (valueOf s g) then s.oneId else s.zeroId, s) := by
        simp only [applyN]
        rw [if_pos hterm]
      rw [heq]
      refine ⟨Ext.refl s, hInv, ?_, ?_, ?_⟩
      · cases hop : op (valueOf s f) (valueOf s g) <;>
          simp [hop, ValidRef]
      · rw [topIdx_terminal hInv hterm.1, topIdx_terminal hInv hterm.2]
        cases hop : op (valueOf s f) (valueOf s g) <;>
          simp only [hop, if_true, if_false, Bool.false_eq_true]
        · rw [topIdx_terminal hInv (Or.inl rfl)]
          simp
        · rw [topIdx_terminal hInv (Or.inr rfl)]
          simp
      · intro a
        rw [evalB_terminal s a hInv.zero_ne_one hterm.1,
            evalB_terminal s a hInv.zero_ne_one hterm.2]
        cases hop : op (valueOf s f) (valueOf s g) <;>
          simp only [hop, if_true, if_false, Bool.false_eq_true]
        · exact evalB_zero s a
        · exact evalB_one s a hInv.zero_ne_one
    · by_cases hfg : rankOf ord s f < rankOf ord s g
      · -- split on `f` only
        have hfnt : ¬isTerminal s f := by
          intro ht
          have h1 : rankOf ord s f = ord.length := by
            rw [rankOf_eq hInv hf, topIdx_terminal hInv ht]
          have h2 := rankOf_le ord s g
          omega
        obtain ⟨nf, hfn⟩ := findNode_of_nonterminal hf hfnt
        have heq : applyN ord op (fuel + 1) s f g =
            makeNode (topVarOf s f)
              (applyN ord op fuel s (nodeLow s f) g).1
              (applyN ord op fuel (applyN ord op fuel s (nodeLow s f) g).2 (nodeHigh s f) g).1
              (applyN ord op fuel (applyN ord op fuel s (nodeLow s f) g).2 (nodeHigh s f) g).2 := by
          simp only [applyN]
          rw [if_neg hterm, if_pos hfg]
        rw [heq, nodeLow_eq hfn, nodeHigh_eq hfn, topVarOf_node hInv hfn]
        have hchild := child_valid_of_find hInv hfn
        have hclt := child_lt_of_find hInv hfn
        obtain ⟨hExt1, hInv1, hval1, hrank1, heval1⟩ :=
          ih s nf.low g hInv hchild.1 hg (by omega)
        obtain ⟨hExt2, hInv2, hval2, hrank2, heval2⟩ :=
          ih (applyN ord op fuel s nf.low g).2 nf.high g hInv1
            (Ext.validRef hInv hExt1 hchild.2) (Ext.validRef hInv hExt1 hg) (by omega)
        have hvm : nf.var ∈ ord := hInv.var_known _ (alookup_mem hfn)
        have hnem : nf.var ≠ "" := hInv.var_ne_empty _ (alookup_mem hfn)
        have hctop := child_topIdx hInv hfn
        have hrf : rankOf ord s f = getVariableIndex ord nf.var := by
          rw [rankOf_eq hInv hf, topIdx_node hfn]
        have hrg : rankOf ord s g = topIdx ord s g := rankOf_eq hInv hg
        have hlow_lt : nf.low < s.nextId := ValidRef_lt hInv hchild.1
        have hhigh_lt : nf.high < s.nextId := ValidRef_lt hInv hchild.2
        have hg_lt : g < s.nextId := ValidRef_lt hInv hg
        have hvalL : ValidRef (applyN ord op fuel (applyN ord op fuel s nf.low g).2 nf.high g).2
            (applyN ord op fuel s nf.low g).1 := Ext.validRef hInv1 hExt2 hval1
        have hordL : getVariableIndex ord nf.var <
            topIdx ord (applyN ord op fuel (applyN ord op fuel s nf.low g).2 nf.high g).2
              (applyN ord op fuel s nf.low g).1 := by
          rw [topIdx_ext hExt2 (ValidRef_lt hInv1 hval1)]
          refine Nat.lt_of_lt_of_le (lt_min hctop.1 ?_) hrank1
          rw [← hrg, ← hrf]
          exact hfg
        have hordH : getVariableIndex ord nf.var <
            topIdx ord (applyN ord op fuel (applyN ord op fuel s nf.low g).2 nf.high g).2
              (applyN ord op fuel (applyN ord op fuel s nf.low g).2 nf.high g).1 := by
          refine Nat.lt_of_lt_of_le ?_ hrank2
          rw [topIdx_ext hExt1 hhigh_lt, topIdx_ext hExt1 hg_lt]
          refine lt_min hctop.2 ?_
          rw [← hrg, ← hrf]
          exact hfg
        obtain ⟨hExtM, hInvM, hvalM, hrankM, hevalM⟩ :=
          makeNode_spec ord hInv2 hvm hnem hvalL hval2 hordL hordH
        refine ⟨(hExt1.trans hExt2).trans hExtM, hInvM, hvalM, ?_, ?_⟩
        · have hminf : min (topIdx ord s f) (topIdx ord s g) = getVariableIndex ord nf.var := by
            rw [topIdx_node hfn]
            refine min_eq_left ?_
            rw [← hrf, ← hrg]
            exact Nat.le_of_lt hfg
          rw [hminf]
          exact hrankM
        · intro a
          rw [hevalM a]
          have hL : evalB (applyN ord op fuel (applyN ord op fuel s nf.low g).2 nf.high g).2
              (applyN ord op fuel s nf.low g).1 a =
              op (evalB s nf.low a) (evalB s g a) := by
            rw [evalB_ext hInv1.childLt hExt2 a (ValidRef_lt hInv1 hval1)]
            exact heval1 a
          have hH : evalB (applyN ord op fuel (applyN ord op fuel s nf.low g).2 nf.high g).2
              (applyN ord op fuel (applyN ord op fuel s nf.low g).2 nf.high g).1 a =
              op (evalB s nf.high a) (evalB s g a) := by
            rw [heval2 a, evalB_ext hInv.childLt hExt1 a hhigh_lt,
                evalB_ext hInv.childLt hExt1 a hg_lt]
          rw [hL, hH,
              evalB_node s a hInv.childLt (hInv.not_zero _ (alookup_mem hfn))
                (hInv.not_one _ (alookup_mem hfn)) hfn]
          by_cases ha : a nf.var <;> simp [ha]
      · by_cases hgf : rankOf ord s g < rankOf ord s f
        · -- split on `g` only
          have hgnt : ¬isTerminal s g := by
            intro ht
            have h1 : rankOf ord s g = ord.length := by
              rw [rankOf_eq hInv hg, topIdx_terminal hInv ht]
            have h2 := rankOf_le ord s f
            omega
          obtain ⟨ng, hgn⟩ := findNode_of_nonterminal hg hgnt
          have heq : applyN ord op (fuel + 1) s f g =
              makeNode (topVarOf s g)
                (applyN ord op fuel s f (nodeLow s g)).1
                (applyN ord op fuel (applyN ord op fuel s f (nodeLow s g)).2 f (nodeHigh s g)).1
                (applyN ord op fuel (applyN ord op fuel s f (nodeLow s g)).2 f (nodeHigh s g)).2 := by
            simp only [applyN]
            rw [if_neg hterm, if_neg hfg, if_pos hgf]
          rw [heq, nodeLow_eq hgn, nodeHigh_eq hgn, topVarOf_node hInv hgn]
          have hchild := child_valid_of_find hInv hgn
          have hclt := child_lt_of_find hInv hgn
          obtain ⟨hExt1, hInv1, hval1, hrank1, heval1⟩ :=
            ih s f ng.low hInv hf hchild.1 (by omega)
          obtain ⟨hExt2, hInv2, hval2, hrank2, heval2⟩ :=
            ih (applyN ord op fuel s f ng.low).2 f ng.high hInv1
              (Ext.validRef hInv hExt1 hf) (Ext.validRef hInv hExt1 hchild.2) (by omega)
          have hvm : ng.var ∈ ord := hInv.var_known _ (alookup_mem hgn)
          have hnem : ng.var ≠ "" := hInv.var_ne_empty _ (alookup_mem hgn)
          have hctop := child_topIdx hInv hgn
          have hrg : rankOf ord s g = getVariableIndex ord ng.var := by
            rw [rankOf_eq hInv hg, topIdx_node hgn]
          have hrf : rankOf ord s f = topIdx ord s f := rankOf_eq hInv hf
          have hlow_lt : ng.low < s.nextId := ValidRef_lt hInv hchild.1
          have hhigh_lt : ng.high < s.nextId := ValidRef_lt hInv hchild.2
          have hf_lt : f < s.nextId := ValidRef_lt hInv hf
          have hvalL : ValidRef (applyN ord op fuel (applyN ord op fuel s f ng.low).2 f ng.high).2
              (applyN ord op fuel s f ng.low).1 := Ext.validRef hInv1 hExt2 hval1
          have hordL : getVariableIndex ord ng.var <
              topIdx ord (applyN ord op fuel (applyN ord op fuel s f ng.low).2 f ng.high).2
                (applyN ord op fuel s f ng.low).1 := by
            rw [topIdx_ext hExt2 (ValidRef_lt hInv1 hval1)]
            refine Nat.lt_of_lt_of_le (lt_min ?_ hctop.1) hrank1
            rw [← hrf, ← hrg]
            exact hgf
          have hordH : getVariableIndex ord ng.var <
              topIdx ord (applyN ord op fuel (applyN ord op fuel s f ng.low).2 f ng.high).2
                (applyN ord op fuel (applyN ord op fuel s f ng.low).2 f ng.high).1 := by
            refine Nat.lt_of_lt_of_le ?_ hrank2
            rw [topIdx_ext hExt1 hhigh_lt, topIdx_ext hExt1 hf_lt]
            refine lt_min ?_ hctop.2
            rw [← hrf, ← hrg]
            exact hgf
          obtain ⟨hExtM, hInvM, hvalM, hrankM, hevalM⟩ :=
            makeNode_spec ord hInv2 hvm hnem hvalL hval2 hordL hordH
          refine ⟨(hExt1.trans hExt2).trans hExtM, hInvM, hvalM, ?_, ?_⟩
          · have hming : min (topIdx ord s f) (topIdx ord s g) = getVariableIndex ord ng.var := by
              rw [topIdx_node hgn]
              refine min_eq_right ?_
              rw [← hrf, ← hrg]
              exact Nat.le_of_lt hgf
            rw [hming]
            exact hrankM
          · intro a
            rw [hevalM a]
            have hL : evalB (applyN ord op fuel (applyN ord op fuel s f ng.low).2 f ng.high).2
                (applyN ord op fuel s f ng.low).1 a =
                op (evalB s f a) (evalB s ng.low a) := by
              rw [evalB_ext hInv1.childLt hExt2 a (ValidRef_lt hInv1 hval1)]
              exact heval1 a
            have hH : evalB (applyN ord op fuel (applyN ord op fuel s f ng.low).2 f ng.high).2
                (applyN ord op fuel (applyN ord op fuel s f ng.low).2 f ng.high).1 a =
                op (evalB s f a) (evalB s ng.high a) := by
              rw [heval2 a, evalB_ext hInv.childLt hExt1 a hhigh_lt,
                  evalB_ext hInv.childLt hExt1 a hf_lt]
            rw [hL, hH,
                evalB_node s a hInv.childLt (hInv.not_zero _ (alookup_mem hgn))
                  (hInv.not_one _ (alookup_mem hgn)) hgn]
            by_cases ha : a ng.var <;> simp [ha]
        · -- equal ranks: split on both
          have heqr : rankOf ord s f = rankOf ord s g := Nat.le_antisymm
            (Nat.le_of_not_lt hgf) (Nat.le_of_not_lt hfg)
          have hfnt : ¬isTerminal s f := by
            intro ht
            have hgnt : ¬isTerminal s g := fun hgt => hterm ⟨ht, hgt⟩
            obtain ⟨ng, hgn⟩ := findNode_of_nonterminal hg hgnt
            have h1 : rankOf ord s f = ord.length := by
              rw [rankOf_eq hInv hf, topIdx_terminal hInv ht]
            have h2 : rankOf ord s g < ord.length := by
              rw [rankOf_eq hInv hg, topIdx_node hgn]
              exact node_rank_lt_len hInv hgn
            omega
          have hgnt : ¬isTerminal s g := by
            intro ht
            obtain ⟨nf, hfn⟩ := findNode_of_nonterminal hf hfnt
            have h1 : rankOf ord s g = ord.length := by
              rw [rankOf_eq hInv hg, topIdx_terminal hInv ht]
            have h2 : rankOf ord s f < ord.length := by
              rw [rankOf_eq hInv hf, topIdx_node hfn]
              exact node_rank_lt_len hInv hfn
            omega
          obtain ⟨nf, hfn⟩ := findNode_of_nonterminal hf hfnt
          obtain ⟨ng, hgn⟩ := findNode_of_nonterminal hg hgnt
          have hvmf : nf.var ∈ ord := hInv.var_known _ (alookup_mem hfn)
          have hvmg : ng.var ∈ ord := hInv.var_known _ (alookup_mem hgn)
          have hidx : getVariableIndex ord nf.var = getVariableIndex ord ng.var := by
            have h1 : rankOf ord s f = getVariableIndex ord nf.var := by
              rw [rankOf_eq hInv hf, topIdx_node hfn]
            have h2 : rankOf ord s g = getVariableIndex ord ng.var := by
              rw [rankOf_eq hInv hg, topIdx_node hgn]
            rw [← h1, ← h2, heqr]
          have hvar : nf.var = ng.var := getVariableIndex_inj ord hvmf hvmg hidx
          have heq : applyN ord op (fuel + 1) s f g =
              makeNode (topVarOf s f)
                (applyN ord op fuel s (nodeLow s f) (nodeLow s g)).1
                (applyN ord op fuel (applyN ord op fuel s (nodeLow s f) (nodeLow s g)).2
                  (nodeHigh s f) (nodeHigh s g)).1
                (applyN ord op fuel (applyN ord op fuel s (nodeLow s f) (nodeLow s g)).2
                  (nodeHigh s f) (nodeHigh s g)).2 := by
            simp only [applyN]
            rw [if_neg hterm, if_neg hfg, if_neg hgf]
          rw [heq, nodeLow_eq hfn, nodeHigh_eq hfn, nodeLow_eq hgn, nodeHigh_eq hgn,
              topVarOf_node hInv hfn]
          have hchildf := child_valid_of_find hInv hfn
          have hchildg := child_valid_of_find hInv hgn
          have hcltf := child_lt_of_find hInv hfn
          have hcltg := child_lt_of_find hInv hgn
          obtain ⟨hExt1, hInv1, hval1, hrank1, heval1⟩ :=
            ih s nf.low ng.low hInv hchildf.1 hchildg.1 (by omega)
          obtain ⟨hExt2, hInv2, hval2, hrank2, heval2⟩ :=
            ih (applyN ord op fuel s nf.low ng.low).2 nf.high ng.high hInv1
              (Ext.validRef hInv hExt1 hchildf.2) (Ext.validRef hInv hExt1 hchildg.2) (by omega)
          have hnem : nf.var ≠ "" := hInv.var_ne_empty _ (alookup_mem hfn)
          have hctopf := child_topIdx hInv hfn
          have hctopg := child_topIdx hInv hgn
          have hlowf_lt : nf.low < s.nextId := ValidRef_lt hInv hchildf.1
          have hhighf_lt : nf.high < s.nextId := ValidRef_lt hInv hchildf.2
          have hlowg_lt : ng.low < s.nextId := ValidRef_lt hInv hchildg.1
          have hhighg_lt : ng.high < s.nextId := ValidRef_lt hInv hchildg.2
          have hvalL : ValidRef
              (applyN ord op fuel (applyN ord op fuel s nf.low ng.low).2 nf.high ng.high).2
              (applyN ord op fuel s nf.low ng.low).1 := Ext.validRef hInv1 hExt2 hval1
          have hordL : getVariableIndex ord nf.var <
              topIdx ord (applyN ord op fuel (applyN ord op fuel s nf.low ng.low).2
                nf.high ng.high).2 (applyN ord op fuel s nf.low ng.low).1 := by
            rw [topIdx_ext hExt2 (ValidRef_lt hInv1 hval1)]
            refine Nat.lt_of_lt_of_le (lt_min hctopf.1 ?_) hrank1
            rw [hidx]
            exact hctopg.1
          have hordH : getVariableIndex ord nf.var <
              topIdx ord (applyN ord op fuel (applyN ord op fuel s nf.low ng.low).2
                nf.high ng.high).2
                (applyN ord op fuel (applyN ord op fuel s nf.low ng.low).2 nf.high ng.high).1 := by
            refine Nat.lt_of_lt_of_le ?_ hrank2
            rw [topIdx_ext hExt1 hhighf_lt, topIdx_ext hExt1 hhighg_lt]
            refine lt_min hctopf.2 ?_
            rw [hidx]
            exact hctopg.2
          obtain ⟨hExtM, hInvM, hvalM, hrankM, hevalM⟩ :=
            makeNode_spec ord hInv2 hvmf hnem hvalL hval2 hordL hordH
          refine ⟨(hExt1.trans hExt2).trans hExtM, hInvM, hvalM, ?_, ?_⟩
          · have hminf : min (topIdx ord s f) (topIdx ord s g) = getVariableIndex ord nf.var := by
              rw [topIdx_node hfn, topIdx_node hgn, ← hidx]
              exact min_self _
            rw [hminf]
            exact hrankM
          · intro a
            rw [hevalM a]
            have hL : evalB
                (applyN ord op fuel (applyN ord op fuel s nf.low ng.low).2 nf.high ng.high).2
                (applyN ord op fuel s nf.low ng.low).1 a =
                op (evalB s nf.low a) (evalB s ng.low a) := by
              rw [evalB_ext hInv1.childLt hExt2 a (ValidRef_lt hInv1 hval1)]
              exact heval1 a
            have hH : evalB
                (applyN ord op fuel (applyN ord op fuel s nf.low ng.low).2 nf.high ng.high).2
                (applyN ord op fuel (applyN ord op fuel s nf.low ng.low).2 nf.high ng.high).1 a =
                op (evalB s nf.high a) (evalB s ng.high a) := by
              rw [heval2 a, evalB_ext hInv.childLt hExt1 a hhighf_lt,
                  evalB_ext hInv.childLt hExt1 a hhighg_lt]
            rw [hL, hH,
                evalB_node s a hInv.childLt (hInv.not_zero _ (alookup_mem hfn))
                  (hInv.not_one _ (alookup_mem hfn)) hfn,
                evalB_node s a hInv.childLt (hInv.not_zero _ (alookup_mem hgn))
                  (hInv.not_one _ (alookup_mem hgn)) hgn,
                ← hvar]
            by_cases ha : a nf.var <;> simp [ha]

/-- `bddNot(f)` with explicit fuel (children have smaller ids, so `f + 1`
fuel always suffices in a well-formed context).  The C++ builds the node with
`makeNode(f->variable, bddNot(f->low), bddNot(f->high))`; the two recursive
calls are modelled low-first, matching the cofactor order used by `apply`. -/
def bddNotN : Nat → Store → Nat → Nat × Store
  | 0, s, _ => (s.zeroId, s)
  | fuel + 1, s, f =>
    if isTerminal s f then (if f = s.oneId then s.zeroId else s.oneId, s)
    else
      let r1 := bddNotN fuel s (nodeLow s f)
      let r2 := bddNotN fuel r1.2 (nodeHigh s f)
      makeNode (nodeVar s f) r1.1 r2.1 r2.2

/-- `bddNot(f)`: the fuel `f + 1` always suffices. -/
def bddNotC (s : Store) (f : Nat) : Nat × Store := bddNotN (f + 1) s f

/-- Master specification of `bddNot` in a well-formed context. -/
theorem bddNotN_spec (ord : List String) :
    ∀ (fuel : Nat) (s : Store) (f : Nat), Inv ord s → ValidRef s f → f < fuel →
      Ext s (bddNotN fuel s f).2 ∧
      Inv ord (bddNotN fuel s f).2 ∧
      ValidRef (bddNotN fuel s f).2 (bddNotN fuel s f).1 ∧
      topIdx ord s f ≤ topIdx ord (bddNotN fuel s f).2 (bddNotN fuel s f).1 ∧
      ∀ a, evalB (bddNotN fuel s f).2 (bddNotN fuel s f).1 a = ! evalB s f a := by
  intro fuel
  induction fuel with
  | zero => intro s f _ _ hlt; omega
  | succ fuel ih =>
    intro s f hInv hf hfuel
    by_cases hterm : isTerminal s f
    · have heq : bddNotN (fuel + 1) s f =
          (if f = s.oneId then s.zeroId else s.oneId, s) := by
        simp only [bddNotN]
        rw [if_pos hterm]
      rw [heq]
      refine ⟨Ext.refl s, hInv, ?_, ?_, ?_⟩
      · by_cases hone : f = s.oneId <;> simp [hone, ValidRef]
      · rw [topIdx_terminal hInv hterm]
        by_cases hone : f = s.oneId <;> simp only [hone, if_true, if_false]
        · rw [topIdx_terminal hInv (Or.inl rfl)]
        · rw [topIdx_terminal hInv (Or.inr rfl)]
      · intro a
        rw [evalB_terminal s a hInv.zero_ne_one hterm]
        by_cases hone : f = s.oneId <;> simp only [hone, if_true, if_false]
        · rw [evalB_zero]
          simp [valueOf]
        · rw [evalB_one s a hInv.zero_ne_one]
          rcases hterm with hz | ho
          · simp [valueOf, hz, hInv.zero_ne_one]
          · exact absurd ho hone
    · obtain ⟨nf, hfn⟩ := findNode_of_nonterminal hf hterm
      have heq : bddNotN (fuel + 1) s f =
          makeNode (nodeVar s f)
            (bddNotN fuel s (nodeLow s f)).1
            (bddNotN fuel (bddNotN fuel s (nodeLow s f)).2 (nodeHigh s f)).1
            (bddNotN fuel (bddNotN fuel s (nodeLow s f)).2 (nodeHigh s f)).2 := by
        simp only [bddNotN]
        rw [if_neg hterm]
      rw [heq, nodeLow_eq hfn, nodeHigh_eq hfn, nodeVar_eq hfn]
      have hchild := child_valid_of_find hInv hfn
      have hclt := child_lt_of_find hInv hfn
      obtain ⟨hExt1, hInv1, hval1, hrank1, heval1⟩ :=
        ih s nf.low hInv hchild.1 (by omega)
      obtain ⟨hExt2, hInv2, hval2, hrank2, heval2⟩ :=
        ih (bddNotN fuel s nf.low).2 nf.high hInv1 (Ext.validRef hInv hExt1 hchild.2) (by omega)
      have hvm : nf.var ∈ ord := hInv.var_known _ (alookup_mem hfn)
      have hnem : nf.var ≠ "" := hInv.var_ne_empty _ (alookup_mem hfn)
      have hctop := child_topIdx hInv hfn
      have hhigh_lt : nf.high < s.nextId := ValidRef_lt hInv hchild.2
      have hvalL : ValidRef (bddNotN fuel (bddNotN fuel s nf.low).2 nf.high).2
          (bddNotN fuel s nf.low).1 := Ext.validRef hInv1 hExt2 hval1
      have hordL : getVariableIndex ord nf.var <
          topIdx ord (bddNotN fuel (bddNotN fuel s nf.low).2 nf.high).2
            (bddNotN fuel s nf.low).1 := by
        rw [topIdx_ext hExt2 (ValidRef_lt hInv1 hval1)]
        exact Nat.lt_of_lt_of_le hctop.1 hrank1
      have hordH : getVariableIndex ord nf.var <
          topIdx ord (bddNotN fuel (bddNotN fuel s nf.low).2 nf.high).2
            (bddNotN fuel (bddNotN fuel s nf.low).2 nf.high).1 := by
        refine Nat.lt_of_lt_of_le ?_ hrank2
        rw [topIdx_ext hExt1 hhigh_lt]
        exact hctop.2
      obtain ⟨hExtM, hInvM, hvalM, hrankM, hevalM⟩ :=
        makeNode_spec ord hInv2 hvm hnem hvalL hval2 hordL hordH
      refine ⟨(hExt1.trans hExt2).trans hExtM, hInvM, hvalM, ?_, ?_⟩
      · rw [topIdx_node hfn]
        exact hrankM
      · intro a
        rw [hevalM a]
        have hL : evalB (bddNotN fuel (bddNotN fuel s nf.low).2 nf.high).2
            (bddNotN fuel s nf.low).1 a = ! evalB s nf.low a := by
          rw [evalB_ext hInv1.childLt hExt2 a (ValidRef_lt hInv1 hval1)]
          exact heval1 a
        have hH : evalB (bddNotN fuel (bddNotN fuel s nf.low).2 nf.high).2
            (bddNotN fuel (bddNotN fuel s nf.low).2 nf.high).1 a = ! evalB s nf.high a := by
          rw [heval2 a, evalB_ext hInv.childLt hExt1 a hhigh_lt]
        rw [hL, hH,
            evalB_node s a hInv.childLt (hInv.not_zero _ (alookup_mem hfn))
              (hInv.not_one _ (alookup_mem hfn)) hfn]
        by_cases ha : a nf.var <;> simp [ha]

/-- `applyC` master specification, at the canonical fuel. -/
theorem applyC_spec (ord : List String) (op : Bool → Bool → Bool) (s : Store) (f g : Nat)
    (hInv : Inv ord s) (hf : ValidRef s f) (hg : ValidRef s g) :
    Ext s (applyC ord s f g op).2 ∧
    Inv ord (applyC ord s f g op).2 ∧
    ValidRef (applyC ord s f g op).2 (applyC ord s f g op).1 ∧
    min (topIdx ord s f) (topIdx ord s g) ≤
      topIdx ord (applyC ord s f g op).2 (applyC ord s f g op).1 ∧
    ∀ a, evalB (applyC ord s f g op).2 (applyC ord s f g op).1 a =
      op (evalB s f a) (evalB s g a) :=
  applyN_spec ord op (f + g + 1) s f g hInv hf hg (Nat.lt_succ_self _)

/-- `bddNotC` master specification, at the canonical fuel. -/
theorem bddNotC_spec (ord : List String) (s : Store) (f : Nat)
    (hInv : Inv ord s) (hf : ValidRef s f) :
    Ext s (bddNotC s f).2 ∧
    Inv ord (bddNotC s f).2 ∧
    ValidRef (bddNotC s f).2 (bddNotC s f).1 ∧
    topIdx ord s f ≤ topIdx ord (bddNotC s f).2 (bddNotC s f).1 ∧
    ∀ a, evalB (bddNotC s f).2 (bddNotC s f).1 a = ! evalB s f a :=
  bddNotN_spec ord (f + 1) s f hInv hf (Nat.lt_succ_self _)

/-! ### Canonicity -/

theorem evalB_dangling {s : Store} {u : Nat} (hz : u ≠ s.zeroId) (ho : u ≠ s.oneId)
    (hn : findNode s u = none) (a : String → Bool) : evalB s u a = false := by
  simp [evalB, evalN, hz, ho, hn]

/-- The function of a diagram does not depend on variables ranked at or
below any rank strictly smaller than its top rank: two assignments that
agree on all variables ranked above `r` give the same value. -/
theorem evalB_indep (ord : List String) {s : Store} (hInv : Inv ord s) :
    ∀ (u r : Nat), r < topIdx ord s u →
      ∀ (a a' : String → Bool), (∀ w, r < getVariableIndex ord w → a w = a' w) →
      evalB s u a = evalB s u a' := by
  intro u
  induction u using Nat.strong_induction_on with
  | _ u ih =>
    intro r hr a a' hagree
    by_cases hz : u = s.zeroId
    · rw [hz, evalB_zero, evalB_zero]
    · by_cases ho : u = s.oneId
      · rw [ho, evalB_one s a hInv.zero_ne_one, evalB_one s a' hInv.zero_ne_one]
      · cases hn : findNode s u with
        | none => rw [evalB_dangling hz ho hn, evalB_dangling hz ho hn]
        | some n =>
          rw [evalB_node s a hInv.childLt hz ho hn, evalB_node s a' hInv.childLt hz ho hn]
          have htopu : topIdx ord s u = getVariableIndex ord n.var := topIdx_node hn
          have hru : r < getVariableIndex ord n.var := htopu ▸ hr
          have hctop := child_topIdx hInv hn
          have hclt := child_lt_of_find hInv hn
          rw [hagree n.var hru,
              ih n.low hclt.1 r (Nat.lt_trans hru hctop.1) a a' hagree,
              ih n.high hclt.2 r (Nat.lt_trans hru hctop.2) a a' hagree]

def updFn (a : String → Bool) (v : String) (b : Bool) : String → Bool :=
  fun w => if w = v then b else a w

/-- Shannon cofactoring: forcing a decision node's own variable selects the
corresponding child, and the child's value is unaffected by the forcing. -/
theorem evalB_upd (ord : List String) {s : Store} (hInv : Inv ord s)
    {u : Nat} {n : Node} (hn : findNode s u = some n) (a : String → Bool) (b : Bool) :
    evalB s u (updFn a n.var b) = if b then evalB s n.high a else evalB s n.low a := by
  have hz : u ≠ s.zeroId := hInv.not_zero _ (alookup_mem hn)
  have ho : u ≠ s.oneId := hInv.not_one _ (alookup_mem hn)
  have hctop := child_topIdx hInv hn
  have hagree : ∀ w, getVariableIndex ord n.var < getVariableIndex ord w →
      updFn a n.var b w = a w := by
    intro w hw
    unfold updFn
    by_cases hwv : w = n.var
    · subst hwv
      exact absurd hw (Nat.lt_irrefl _)
    · simp [hwv]
  rw [evalB_node s _ hInv.childLt hz ho hn]
  have hself : updFn a n.var b n.var = b := by simp [updFn]
  rw [hself,
      evalB_indep ord hInv n.high (getVariableIndex ord n.var) hctop.2 _ a hagree,
      evalB_indep ord hInv n.low (getVariableIndex ord n.var) hctop.1 _ a hagree]

/-- Distinct references of a well-formed context denote distinct functions:
the heart of canonicity, by strong induction on the larger id. -/
theorem eval_distinct (ord : List String) {s : Store} (hInv : Inv ord s) :
    ∀ (N i j : Nat), max i j < N → ValidRef s i → ValidRef s j → i ≠ j →
      ∃ a, evalB s i a ≠ evalB s j a := by
  intro N
  induction N with
  | zero => intro i j h; omega
  | succ N ih =>
    intro i j hmax hi hj hne
    by_cases hti : isTerminal s i
    · by_cases htj : isTerminal s j
      · -- two distinct terminals differ everywhere
        refine ⟨fun _ => true, ?_⟩
        rw [evalB_terminal s _ hInv.zero_ne_one hti, evalB_terminal s _ hInv.zero_ne_one htj]
        rcases hti with h1 | h1 <;> rcases htj with h2 | h2
        · exact absurd (h1.trans h2.symm) hne
        · simp [valueOf, h1, h2, hInv.zero_ne_one]
        · simp only [valueOf, h1, h2]
          simp [hInv.zero_ne_one]
        · exact absurd (h1.trans h2.symm) hne
      · -- terminal vs decision node: the node is not constant
        obtain ⟨n, hn⟩ := findNode_of_nonterminal hj htj
        have hchild := child_valid_of_find hInv hn
        have hclt := child_lt_of_find hInv hn
        have hred : n.low ≠ n.high := hInv.reduced _ (alookup_mem hn)
        obtain ⟨a0, ha0⟩ := ih n.low n.high (by omega) hchild.1 hchild.2 hred
        by_cases hcmp : evalB s n.high a0 = valueOf s i
        · refine ⟨updFn a0 n.var false, ?_⟩
          rw [evalB_upd ord hInv hn a0 false, if_neg Bool.false_ne_true,
              evalB_terminal s _ hInv.zero_ne_one hti]
          intro hcon
          exact ha0 (hcon.symm.trans hcmp.symm)
        · refine ⟨updFn a0 n.var true, ?_⟩
          rw [evalB_upd ord hInv hn a0 true, if_pos rfl,
              evalB_terminal s _ hInv.zero_ne_one hti]
          exact fun hcon => hcmp hcon.symm
    · by_cases htj : isTerminal s j
      · -- decision node vs terminal: symmetric
        obtain ⟨n, hn⟩ := findNode_of_nonterminal hi hti
        have hchild := child_valid_of_find hInv hn
        have hclt := child_lt_of_find hInv hn
        have hred : n.low ≠ n.high := hInv.reduced _ (alookup_mem hn)
        obtain ⟨a0, ha0⟩ := ih n.low n.high (by omega) hchild.1 hchild.2 hred
        by_cases hcmp : evalB s n.high a0 = valueOf s j
        · refine ⟨updFn a0 n.var false, ?_⟩
          rw [evalB_upd ord hInv hn a0 false, if_neg Bool.false_ne_true,
              evalB_terminal s _ hInv.zero_ne_one htj]
          intro hcon
          exact ha0 (hcon.trans hcmp.symm)
        · refine ⟨updFn a0 n.var true, ?_⟩
          rw [evalB_upd ord hInv hn a0 true, if_pos rfl,
              evalB_terminal s _ hInv.zero_ne_one htj]
          exact hcmp
      · -- two decision nodes
        obtain ⟨ni, hni⟩ := findNode_of_nonterminal hi hti
        obtain ⟨nj, hnj⟩ := findNode_of_nonterminal hj htj
        have hchildi := child_valid_of_find hInv hni
        have hchildj := child_valid_of_find hInv hnj
        have hclti := child_lt_of_find hInv hni
        have hcltj := child_lt_of_find hInv hnj
        have hredi : ni.low ≠ ni.high := hInv.reduced _ (alookup_mem hni)
        have hredj : nj.low ≠ nj.high := hInv.reduced _ (alookup_mem hnj)
        rcases Nat.lt_trichotomy (getVariableIndex ord ni.var) (getVariableIndex ord nj.var)
          with hlt | heq | hgt
        · -- `i` depends on its own top variable, `j` does not
          obtain ⟨a0, ha0⟩ := ih ni.low ni.high (by omega) hchildi.1 hchildi.2 hredi
          have hjconst : ∀ b, evalB s j (updFn a0 ni.var b) = evalB s j a0 := by
            intro b
            refine evalB_indep ord hInv j (getVariableIndex ord ni.var)
              (by rw [topIdx_node hnj]; exact hlt) _ a0 ?_
            intro w hw
            unfold updFn
            by_cases hwv : w = ni.var
            · subst hwv
              exact absurd hw (Nat.lt_irrefl _)
            · simp [hwv]
          by_cases hcmp : evalB s ni.high a0 = evalB s j a0
          · refine ⟨updFn a0 ni.var false, ?_⟩
            rw [evalB_upd ord hInv hni a0 false, if_neg Bool.false_ne_true, hjconst false]
            intro hcon
            exact ha0 (hcon.trans hcmp.symm)
          · refine ⟨updFn a0 ni.var true, ?_⟩
            rw [evalB_upd ord hInv hni a0 true, if_pos rfl, hjconst true]
            exact hcmp
        · -- equal top ranks: same top variable, compare cofactors
          have hvar : ni.var = nj.var := getVariableIndex_inj ord
            (hInv.var_known _ (alookup_mem hni)) (hInv.var_known _ (alookup_mem hnj)) heq
          by_cases hlow : ni.low = nj.low
          · by_cases hhigh : ni.high = nj.high
            · exfalso
              have hnodes : ni = nj := by
                cases ni; cases nj
                simp only at hvar hlow hhigh
                simp [hvar, hlow, hhigh]
              have hci : findUnique s (ni.var, ni.low, ni.high) = some i :=
                hInv.findUnique_mem (hInv.node_complete _ (alookup_mem hni))
              have hcj : findUnique s (ni.var, ni.low, ni.high) = some j := by
                have := hInv.findUnique_mem (hInv.node_complete _ (alookup_mem hnj))
                rw [hnodes]
                exact this
              rw [hci] at hcj
              exact hne (by simpa using hcj)
            · obtain ⟨a0, ha0⟩ := ih ni.high nj.high (by omega) hchildi.2 hchildj.2 hhigh
              refine ⟨updFn a0 ni.var true, ?_⟩
              rw [evalB_upd ord hInv hni a0 true, if_pos rfl]
              have hupd : updFn a0 ni.var true = updFn a0 nj.var true := by rw [hvar]
              rw [hupd, evalB_upd ord hInv hnj a0 true, if_pos rfl]
              exact ha0
          · obtain ⟨a0, ha0⟩ := ih ni.low nj.low (by omega) hchildi.1 hchildj.1 hlow
            refine ⟨updFn a0 ni.var false, ?_⟩
            rw [evalB_upd ord hInv hni a0 false, if_neg Bool.false_ne_true]
            have hupd : updFn a0 ni.var false = updFn a0 nj.var false := by rw [hvar]
            rw [hupd, evalB_upd ord hInv hnj a0 false, if_neg Bool.false_ne_true]
            exact ha0
        · -- `j` depends on its own top variable, `i` does not
          obtain ⟨a0, ha0⟩ := ih nj.low nj.high (by omega) hchildj.1 hchildj.2 hredj
          have hiconst : ∀ b, evalB s i (updFn a0 nj.var b) = evalB s i a0 := by
            intro b
            refine evalB_indep ord hInv i (getVariableIndex ord nj.var)
              (by rw [topIdx_node hni]; exact hgt) _ a0 ?_
            intro w hw
            unfold updFn
            by_cases hwv : w = nj.var
            · subst hwv
              exact absurd hw (Nat.lt_irrefl _)
            · simp [hwv]
          by_cases hcmp : evalB s nj.high a0 = evalB s i a0
          · refine ⟨updFn a0 nj.var false, ?_⟩
            rw [evalB_upd ord hInv hnj a0 false, if_neg Bool.false_ne_true, hiconst false]
            intro hcon
            exact ha0 (hcmp ▸ hcon.symm)
          · refine ⟨updFn a0 nj.var true, ?_⟩
            rw [evalB_upd ord hInv hnj a0 true, if_pos rfl, hiconst true]
            exact fun hcon => hcmp hcon.symm

/-- Canonicity: in a well-formed context, two references denote the same
Boolean function exactly when they are the same node. -/
theorem canonicity (ord : List String) {s : Store} (hInv : Inv ord s)
    {i j : Nat} (hi : ValidRef s i) (hj : ValidRef s j) :
    (∀ a, evalB s i a = evalB s j a) ↔ i = j := by
  constructor
  · intro hsem
    by_contra hne
    obtain ⟨a, ha⟩ := eval_distinct ord hInv (max i j + 1) i j (Nat.lt_succ_self _) hi hj hne
    exact ha (hsem a)
  · intro h
    subst h
    intro a
    rfl

/-! ### Netlist, gate evaluation, build pipeline and sifting -/

/-- `struct Gate`: kind, output signal, input signals. -/
structure Gate where
  type : String
  output : String
  inputs : List String
deriving DecidableEq, Repr

/-- The parsed netlist: `inputs`, `outputs` and `gates` as `parse` collects
them.  `parse` is deterministic, so re-parsing the same Verilog text (as the
sifter does on every rebuild) always yields this same record. -/
structure Netlist where
  inputs : List String
  outputs : List String
  gates : List Gate
deriving DecidableEq, Repr

/-- `signalBDDs : map<string, BDDNode*>`.  The stored pointer can be null
(a gate evaluation can return `nullptr`), hence `Option Nat` values. -/
def Env : Type := List (String × Option Nat)

/-- `getSignalBDD`: returns null both for an absent key and a null value. -/
def getSignalBDD (env : Env) (x : String) : Option Nat :=
  match alookup env x with
  | some v => v
  | none => none

/-- `signalBDDs[x] = v` (the newest binding shadows older ones). -/
def setSignalBDD (env : Env) (x : String) (v : Option Nat) : Env := (x, v) :: env

/-- The left fold `result = apply(result, in ? in : BDD_ZERO, op)` over the
remaining input signals of a gate. -/
def foldOp (ord : List String) (op : Bool → Bool → Bool) (env : Env) :
    Store → Nat → List String → Nat × Store
  | s, acc, [] => (acc, s)
  | s, acc, x :: rest =>
    let inb := getSignalBDD env x
    let r := applyC ord s acc (inb.getD s.zeroId) op
    foldOp ord op env r.2 r.1 rest

/-- `ROBDDBuilder::evaluateGate`.  A `none` result models the C++ returning
a null `BDDNode*`: an `and`/`or`/`xor`/`nand` gate whose single input has no
binding really returns the still-null `result` pointer.  When further inputs
follow an unbound first input, the C++ instead calls `apply` on the null
pointer and dereferences it — undefined behavior; the `(none, s)` this total
model returns there is only a placeholder for that crash, and no theorem
below says anything about that case.  A `not`/`NOT` gate with an unbound
input falls through the dispatch chain and returns `BDD_ZERO`. -/
def evalGate (ord : List String) (s : Store) (env : Env) (g : Gate) : Option Nat × Store :=
  match g.inputs with
  | [] => (some s.zeroId, s)
  | x :: rest =>
    if g.type = "not" ∨ g.type = "NOT" then
      match getSignalBDD env x with
      | some n => let r := bddNotC s n; (some r.1, r.2)
      | none => (some s.zeroId, s)
    else if g.type = "and" ∨ g.type = "AND" then
      match getSignalBDD env x with
      | some n => let r := foldOp ord AndOp env s n rest; (some r.1, r.2)
      | none => (none, s)
    else if g.type = "or" ∨ g.type = "OR" then
      match getSignalBDD env x with
      | some n => let r := foldOp ord OrOp env s n rest; (some r.1, r.2)
      | none => (none, s)
    else if g.type = "xor" ∨ g.type = "XOR" then
      match getSignalBDD env x with
      | some n => let r := foldOp ord XorOp env s n rest; (some r.1, r.2)
      | none => (none, s)
    else if g.type = "nand" ∨ g.type = "NAND" then
      match getSignalBDD env x with
      | some n => let r := foldOp ord NandOp env s n rest; (some r.1, r.2)
      | none => (none, s)
    else (some s.zeroId, s)

/-- State threaded through `processGates`: the signal environment, the node
store, and `processedSignals`. -/
structure BState where
  env : Env
  store : Store
  processed : Finset String

/-- `allInputsReady`: every input is a processed signal or a primary input. -/
def gateReady (inputs : List String) (processed : Finset String) (g : Gate) : Prop :=
  ∀ x ∈ g.inputs, x ∈ processed ∨ x ∈ inputs

instance (inputs : List String) (processed : Finset String) (g : Gate) :
    Decidable (gateReady inputs processed g) := by
  unfold gateReady; infer_instance

/-- One gate visit inside a pass of the `while` loop. -/
def passStep (ord inputs : List String) (st : BState × Bool) (g : Gate) : BState × Bool :=
  let bs := st.1
  if g.output ∉ bs.processed ∧ gateReady inputs bs.processed g then
    let r := evalGate ord bs.store bs.env g
    (⟨setSignalBDD bs.env g.output r.1, r.2, insert g.output bs.processed⟩, true)
  else st

/-- One pass of the `while` loop over all gates, tracking `progress`. -/
def passOnce (ord inputs : List String) (gates : List Gate) (bs : BState) : BState × Bool :=
  gates.foldl (passStep ord inputs) (bs, false)

/-- One gate visit of the last-resort pass (no readiness check). -/
def fallbackStep (ord : List String) (bs : BState) (g : Gate) : BState :=
  if g.output ∉ bs.processed then
    let r := evalGate ord bs.store bs.env g
    ⟨setSignalBDD bs.env g.output r.1, r.2, insert g.output bs.processed⟩
  else bs

/-- The last-resort pass: process all remaining gates in list order. -/
def fallbackPass (ord : List String) (gates : List Gate) (bs : BState) : BState :=
  gates.foldl (fallbackStep ord) bs

/-- The `while` loop of `processGates`, with fuel.  Each iteration either
strictly grows `processedSignals` (progress) or runs the fallback pass and
breaks, so `gates.length + 1` iterations of fuel are never exhausted. -/
def processLoop (ord inputs : List String) (gates : List Gate) : Nat → BState → BState
  | 0, bs => bs
  | fuel + 1, bs =>
    if bs.processed.card < gates.length + inputs.length then
      let r := passOnce ord inputs gates bs
      if r.2 then processLoop ord inputs gates fuel r.1
      else fallbackPass ord gates r.1
    else bs

/-- `ROBDDBuilder::processGates`. -/
def processGates (ord inputs : List String) (gates : List Gate) (bs : BState) : BState :=
  processLoop ord inputs gates (gates.length + 1) bs

/-- `initializeInputBDDs`: bind each primary input, in declaration order, to
`makeNode(input, BDD_ZERO, BDD_ONE)`. -/
def initInputBDDs : List String → Env → Store → Env × Store
  | [], env, s => (env, s)
  | x :: rest, env, s =>
    let r := makeNode x s.zeroId s.oneId s
    initInputBDDs rest (setSignalBDD env x (some r.1)) r.2

/-- `ROBDDBuilder::buildROBDD` on an already-initialized context: `parse`
sets the variable order to the declared inputs and seeds the environment,
`processGates` evaluates the gates, and the diagram bound to the first
declared output (or `BDD_ZERO` when no output is declared) is returned,
along with the final environment and store. -/
def buildROBDD (nl : Netlist) (s : Store) : Option Nat × Env × Store :=
  let e := initInputBDDs nl.inputs [] s
  let bs := processGates nl.inputs nl.inputs nl.gates ⟨e.1, e.2, nl.inputs.toFinset⟩
  match nl.outputs with
  | [] => (some s.zeroId, bs.env, bs.store)
  | o :: _ => (getSignalBDD bs.env o, bs.env, bs.store)

/-- The global mutable state the sifter works on: `variableOrder` and the
node store (tables plus the static id counter). -/
structure GState where
  order : List String
  store : Store

/-- `rebuildROBDD`: clear the tables, recreate the terminals (the static id
counter keeps counting), re-parse and rebuild.  Note that `parse` calls
`setVariableOrder(inputs)`, so the global order is **reset to the declared
input order**, whatever it was before the call. -/
def rebuildROBDD (nl : Netlist) (g : GState) : GState × Option Nat :=
  let s := mkContext g.store.nextId
  let r := buildROBDD nl s
  (⟨nl.inputs, r.2.2⟩, r.1)

/-- `std::swap(variableOrder[i], variableOrder[j])`. -/
def swapIdx (l : List String) (i j : Nat) : List String :=
  (l.set i (l.getD j "")).set j (l.getD i "")

/-- The upward sweep `for (j = i-1; j >= 0; --j)`: swap positions `j` and
`j+1`, rebuild, measure, update the running best.  `k` counts the remaining
iterations, so the current `j` is `k - 1`. -/
def upLoop (nl : Netlist) : Nat → GState → Nat × Nat → GState × (Nat × Nat)
  | 0, g, best => (g, best)
  | k + 1, g, best =>
    let j := k
    let g1 : GState := ⟨swapIdx g.order j (j + 1), g.store⟩
    let g2 := (rebuildROBDD nl g1).1
    let sz := computeBDDSize g2.store
    upLoop nl k g2 (if sz < best.2 then (j, sz) else best)

/-- The downward sweep `for (j = i+1; j < order.size(); ++j)`. -/
def downLoop (nl : Netlist) (js : List Nat) (g : GState) (best : Nat × Nat) :
    GState × (Nat × Nat) :=
  js.foldl (fun st j =>
    let g1 : GState := ⟨swapIdx st.1.order j (j - 1), st.1.store⟩
    let g2 := (rebuildROBDD nl g1).1
    let sz := computeBDDSize g2.store
    (g2, if sz < st.2.2 then (j, sz) else st.2)) (g, best)

/-- The body of the sifter's outer loop for the variable at position `i`. -/
def siftStep (nl : Netlist) (g : GState) (i : Nat) : GState :=
  let var := g.order.getD i ""
  let best0 := (i, computeBDDSize g.store)
  let original := g.order
  let r1 := upLoop nl i g best0
  let g2 : GState := ⟨original, r1.1.store⟩
  let r2 := downLoop nl (List.range' (i + 1) (g2.order.length - (i + 1))) g2 r1.2
  if r2.2.1 ≠ i then
    let g4 : GState := ⟨(r2.1.order.eraseIdx i).insertIdx r2.2.1 var, r2.1.store⟩
    (rebuildROBDD nl g4).1
  else ⟨original, r2.1.store⟩

/-- `siftVariables`: returns immediately when the global order is empty
(which is the state `main` always calls it in), otherwise rebuilds once and
sifts each position. -/
def siftVariables (nl : Netlist) (g : GState) : GState :=
  if g.order = [] then g
  else
    let g1 := (rebuildROBDD nl g).1
    (List.range g1.order.length).foldl (siftStep nl) g1

/-- Direct Boolean gate simulation: the gate kinds' truth functions applied
with the evaluator's dispatch and left-fold structure (an unbound signal
reads as `false`, the value of the `Zero` diagram). -/
def evalGateBool (benv : List (String × Bool)) (g : Gate) : Bool :=
  match g.inputs with
  | [] => false
  | x :: rest =>
    if g.type = "not" ∨ g.type = "NOT" then ! (alookup benv x).getD false
    else if g.type = "and" ∨ g.type = "AND" then
      rest.foldl (fun acc y => AndOp acc ((alookup benv y).getD false))
        ((alookup benv x).getD false)
    else if g.type = "or" ∨ g.type = "OR" then
      rest.foldl (fun acc y => OrOp acc ((alookup benv y).getD false))
        ((alookup benv x).getD false)
    else if g.type = "xor" ∨ g.type = "XOR" then
      rest.foldl (fun acc y => XorOp acc ((alookup benv y).getD false))
        ((alookup benv x).getD false)
    else if g.type = "nand" ∨ g.type = "NAND" then
      rest.foldl (fun acc y => NandOp acc ((alookup benv y).getD false))
        ((alookup benv x).getD false)
    else false

/-- The Boolean environment of the primary inputs under an assignment. -/
def inputVals (xs : List String) (a : String → Bool) : List (String × Bool) :=
  xs.foldl (fun e x => (x, a x) :: e) []

/-- Boolean simulation of the gates in list order. -/
def boolFold (gates : List Gate) (benv : List (String × Bool)) : List (String × Bool) :=
  gates.foldl (fun e g => (g.output, evalGateBool e g) :: e) benv

/-- Direct simulation of the netlist under a `{0,1}` assignment of the
primary inputs: bind each primary input to its assigned value, compute each
gate's output value in list order, and read off the first declared output. -/
def simulate (nl : Netlist) (a : String → Bool) : Bool :=
  match nl.outputs with
  | [] => false
  | o :: _ => (alookup (boolFold nl.gates (inputVals nl.inputs a)) o).getD false

/-- The gates are listed in a dependency-respecting order: each gate reads
only signals available before it. -/
def topoOk : List String → List Gate → Bool
  | _, [] => true
  | avail, g :: rest => (g.inputs.all fun x => avail.contains x) && topoOk (g.output :: avail) rest

/-- The gate kinds the evaluator recognizes (note: no `nor`/`NOR`). -/
def knownKinds : List String :=
  ["not", "NOT", "and", "AND", "or", "OR", "xor", "XOR", "nand", "NAND"]

/-- A well-formed acyclic netlist: duplicate-free nonempty input names,
duplicate-free gate outputs disjoint from the inputs, recognized gate kinds
with at least one input each, an acyclic dependency graph, and a first
declared output that is actually driven (or is a primary input).  The gates
may be *declared in any order*: acyclicity is the existence of some
dependency-respecting permutation of the gate list, not a constraint on the
list order itself. -/
def WellFormed (nl : Netlist) : Prop :=
  nl.inputs.Nodup ∧
  (∀ x ∈ nl.inputs, x ≠ "") ∧
  (nl.gates.map Gate.output).Nodup ∧
  (∀ g ∈ nl.gates, g.output ∉ nl.inputs) ∧
  (∀ g ∈ nl.gates, g.type ∈ knownKinds ∧ g.inputs ≠ []) ∧
  (∃ gs', List.Perm gs' nl.gates ∧ topoOk nl.inputs gs' = true) ∧
  nl.outputs ≠ [] ∧
  (nl.outputs.headD "" ∈ nl.inputs ∨ nl.outputs.headD "" ∈ nl.gates.map Gate.output)

/-! ### Reachability through `makeNode` and the structural invariants -/

/-- Store states reachable from a fresh context by `makeNode` calls alone
(with arbitrary arguments). -/
inductive ReachMakeNode : Store → Prop
  | init (n : Nat) : ReachMakeNode (mkContext n)
  | step (s : Store) (v : String) (l h : Nat) :
      ReachMakeNode s → ReachMakeNode (makeNode v l h s).2

/-- The structural part of the context invariant that `makeNode` maintains
with no assumptions at all on its arguments. -/
def CoreInv (s : Store) : Prop :=
  s.zeroId < s.nextId ∧ s.oneId < s.nextId ∧
  (s.nodeTable.map Prod.fst).Nodup ∧ (s.uniqueTable.map Prod.fst).Nodup ∧
  (∀ p ∈ s.nodeTable, p.1 < s.nextId) ∧
  (∀ p ∈ s.nodeTable, p.2.low ≠ p.2.high) ∧
  (∀ e ∈ s.uniqueTable, (e.2, Node.mk e.1.1 e.1.2.1 e.1.2.2) ∈ s.nodeTable) ∧
  (∀ p ∈ s.nodeTable, ((p.2.var, p.2.low, p.2.high), p.1) ∈ s.uniqueTable)

theorem coreInv_mkContext (n : Nat) : CoreInv (mkContext n) := by
  refine ⟨by simp [mkContext], by simp [mkContext], ?_, ?_, ?_, ?_, ?_, ?_⟩ <;>
    simp [mkContext]

theorem coreInv_makeNode {s : Store} (h : CoreInv s) (v : String) (l hi : Nat) :
    CoreInv (makeNode v l hi s).2 := by
  obtain ⟨h0, h1, hnk, huk, hlt, hred, hus, hnc⟩ := h
  by_cases hlh : l = hi
  · simpa [makeNode, hlh] using ⟨h0, h1, hnk, huk, hlt, hred, hus, hnc⟩
  · cases hu : findUnique s (v, l, hi) with
    | some i => simpa [makeNode, hlh, hu] using ⟨h0, h1, hnk, huk, hlt, hred, hus, hnc⟩
    | none =>
      have hmk : (makeNode v l hi s).2 = { s with
          nextId := s.nextId + 1,
          uniqueTable := ((v, l, hi), s.nextId) :: s.uniqueTable,
          nodeTable := (s.nextId, ⟨v, l, hi⟩) :: s.nodeTable } := by
        simp [makeNode, hlh, hu]
      rw [hmk]
      refine ⟨Nat.lt_succ_of_lt h0, Nat.lt_succ_of_lt h1, ?_, ?_, ?_, ?_, ?_, ?_⟩
      · rw [show ({ s with
            nextId := s.nextId + 1,
            uniqueTable := ((v, l, hi), s.nextId) :: s.uniqueTable,
            nodeTable := (s.nextId, (⟨v, l, hi⟩ : Node)) :: s.nodeTable } : Store).nodeTable
            = (s.nextId, (⟨v, l, hi⟩ : Node)) :: s.nodeTable from rfl, List.map_cons]
        refine List.nodup_cons.mpr ⟨?_, hnk⟩
        intro hc
        obtain ⟨p, hp, hp2⟩ := List.mem_map.mp hc
        exact absurd (hp2 ▸ hlt p hp) (Nat.lt_irrefl _)
      · rw [show ({ s with
            nextId := s.nextId + 1,
            uniqueTable := ((v, l, hi), s.nextId) :: s.uniqueTable,
            nodeTable := (s.nextId, (⟨v, l, hi⟩ : Node)) :: s.nodeTable } : Store).uniqueTable
            = ((v, l, hi), s.nextId) :: s.uniqueTable from rfl, List.map_cons]
        refine List.nodup_cons.mpr ⟨?_, huk⟩
        intro hc
        obtain ⟨p, hp, hp2⟩ := List.mem_map.mp hc
        have hp2' : p.1 = (v, l, hi) := hp2
        have : findUnique s (v, l, hi) = some p.2 :=
          alookup_of_mem huk (by rw [← hp2', Prod.mk.eta]; exact hp)
        rw [hu] at this
        exact absurd this (by simp)
      · intro p hp
        rcases List.mem_cons.mp hp with rfl | hp
        · exact Nat.lt_succ_self _
        · exact Nat.lt_succ_of_lt (hlt p hp)
      · intro p hp
        rcases List.mem_cons.mp hp with rfl | hp
        · exact hlh
        · exact hred p hp
      · intro e he
        rcases List.mem_cons.mp he with rfl | he
        · exact List.mem_cons_self _ _
        · exact List.mem_cons_of_mem _ (hus e he)
      · intro p hp
        rcases List.mem_cons.mp hp with rfl | hp
        · exact List.mem_cons_self _ _
        · exact List.mem_cons_of_mem _ (hnc p hp)

theorem reach_coreInv {s : Store} (h : ReachMakeNode s) : CoreInv s := by
  induction h with
  | init n => exact coreInv_mkContext n
  | step s v l hi _ ih => exact coreInv_makeNode ih v l hi

/-- Claim C3: `makeNode(var, low, high)` returns `low` itself, creating
nothing, whenever the two children are the same node, and in every state
reachable through `makeNode` no decision node has equal children and no two
decision nodes share the same `(var, low, high)` triple. -/
theorem robdd_C3_makeNode_reduction_and_uniqueness (s : Store) (hs : ReachMakeNode s) :
    (∀ (v : String) (l : Nat) (s' : Store), makeNode v l l s' = (l, s')) ∧
    (∀ p ∈ s.nodeTable, p.2.low ≠ p.2.high) ∧
    (∀ p ∈ s.nodeTable, ∀ q ∈ s.nodeTable,
      p.2.var = q.2.var → p.2.low = q.2.low → p.2.high = q.2.high → p.1 = q.1) := by
  obtain ⟨h0, h1, hnk, huk, hlt, hred, hus, hnc⟩ := reach_coreInv hs
  refine ⟨fun v l s' => by simp [makeNode], hred, ?_⟩
  intro p hp q hq hv hl hh
  have hcp : findUnique s (p.2.var, p.2.low, p.2.high) = some p.1 :=
    alookup_of_mem huk (hnc p hp)
  have hcq : findUnique s (p.2.var, p.2.low, p.2.high) = some q.1 := by
    rw [hv, hl, hh]
    exact alookup_of_mem huk (hnc q hq)
  rw [hcp] at hcq
  simpa using hcq

/-- Witness for C3 at a concrete store: the reduction rule at the fresh
context, and the invariants in the context holding one decision node. -/
theorem robdd_C3_witness :
    makeNode "a" 0 0 (mkContext 0) = (0, mkContext 0) ∧
    (∀ p ∈ (makeNode "a" 0 1 (mkContext 0)).2.nodeTable, p.2.low ≠ p.2.high) :=
  ⟨(robdd_C3_makeNode_reduction_and_uniqueness (mkContext 0) (ReachMakeNode.init 0)).1
      "a" 0 (mkContext 0),
   (robdd_C3_makeNode_reduction_and_uniqueness (makeNode "a" 0 1 (mkContext 0)).2
      (ReachMakeNode.step (mkContext 0) "a" 0 1 (ReachMakeNode.init 0))).2.1⟩

/-! ### The id counter across contexts -/

/-- All ids allocated so far lie below the static counter. -/
def IdBound (s : Store) : Prop :=
  s.zeroId < s.nextId ∧ s.oneId < s.nextId ∧ ∀ p ∈ s.nodeTable, p.1 < s.nextId

/-- Claim C9: the node id counter is global and never reset.  Clearing the
context (`rebuildROBDD` does exactly `mkContext s.nextId`) allocates fresh
terminals whose ids exceed every id ever allocated before — in particular the
previous context's terminal ids — and the counter strictly increases; a
`makeNode` call either returns an existing id without allocating or assigns
exactly the next counter value, greater than every allocated id. -/
theorem robdd_C9_global_counter (s : Store) (hs : IdBound s) :
    ((mkContext s.nextId).zeroId = s.nextId ∧ (mkContext s.nextId).oneId = s.nextId + 1 ∧
      (mkContext s.nextId).nextId = s.nextId + 2 ∧ s.nextId < (mkContext s.nextId).nextId) ∧
    (∀ i, ValidRef s i → i < (mkContext s.nextId).zeroId ∧ i < (mkContext s.nextId).oneId) ∧
    s.zeroId ≠ (mkContext s.nextId).zeroId ∧
    s.oneId ≠ (mkContext s.nextId).oneId ∧
    (mkContext s.nextId).zeroId ≠ (mkContext s.nextId).oneId ∧
    IdBound (mkContext s.nextId) ∧
    (∀ (v : String) (l h : Nat),
      IdBound (makeNode v l h s).2 ∧
      ((makeNode v l h s).2.nextId = s.nextId ∨
        ((makeNode v l h s).1 = s.nextId ∧ (makeNode v l h s).2.nextId = s.nextId + 1 ∧
          ∀ i, ValidRef s i → i < (makeNode v l h s).1))) := by
  obtain ⟨h0, h1, hlt⟩ := hs
  have hvalid : ∀ i, ValidRef s i → i < s.nextId := by
    intro i hv
    rcases hv with hv | hv | hv
    · omega
    · omega
    · obtain ⟨n, hn⟩ := Option.isSome_iff_exists.mp hv
      exact hlt _ (alookup_mem hn)
  refine ⟨⟨rfl, rfl, rfl, by simp only [mkContext]; omega⟩, ?_, by simp [mkContext]; omega,
    by simp [mkContext]; omega, by simp [mkContext], ⟨by simp [mkContext],
    by simp [mkContext], by simp [mkContext]⟩, ?_⟩
  · intro i hv
    have := hvalid i hv
    simp only [mkContext]
    omega
  · intro v l h
    by_cases hlh : l = h
    · refine ⟨?_, Or.inl ?_⟩ <;> simp [makeNode, hlh]
      exact ⟨h0, h1, hlt⟩
    · cases hu : findUnique s (v, l, h) with
      | some i =>
        refine ⟨?_, Or.inl ?_⟩ <;> simp [makeNode, hlh, hu]
        exact ⟨h0, h1, hlt⟩
      | none =>
        have hmk2 : (makeNode v l h s).2 = { s with
            nextId := s.nextId + 1,
            uniqueTable := ((v, l, h), s.nextId) :: s.uniqueTable,
            nodeTable := (s.nextId, ⟨v, l, h⟩) :: s.nodeTable } := by
          simp [makeNode, hlh, hu]
        have hmk1 : (makeNode v l h s).1 = s.nextId := by
          simp [makeNode, hlh, hu]
        refine ⟨?_, Or.inr ⟨hmk1, by rw [hmk2], ?_⟩⟩
        · rw [hmk2]
          refine ⟨Nat.lt_succ_of_lt h0, Nat.lt_succ_of_lt h1, ?_⟩
          intro p hp
          rcases List.mem_cons.mp hp with rfl | hp
          · exact Nat.lt_succ_self _
          · exact Nat.lt_succ_of_lt (hlt p hp)
        · intro i hv
          rw [hmk1]
          exact hvalid i hv

/-- Witness for C9 at the fresh context with counter `0`. -/
theorem robdd_C9_witness :
    (mkContext (mkContext 0).nextId).zeroId = (mkContext 0).nextId ∧
    (mkContext 0).zeroId ≠ (mkContext (mkContext 0).nextId).zeroId :=
  ⟨(robdd_C9_global_counter (mkContext 0) (by constructor <;> simp [mkContext])).1.1,
   (robdd_C9_global_counter (mkContext 0) (by constructor <;> simp [mkContext])).2.2.1⟩

/-- Claim C5 (refuted): a trial rebuild inside the sifter's sweeps never
measures the exchanged order.  `rebuildROBDD` re-parses the netlist and
`parse` ends with `setVariableOrder(inputs)`, so the rebuild (a) leaves the
global order equal to the declared input order and (b) is entirely
insensitive to the order in effect when it is called — the preceding
`swap(variableOrder[j], variableOrder[j+1])` has no effect on the diagram
that is built or on the size that is measured.  Moreover `main` calls
`siftVariables` while the global order is still empty, so the sifter returns
immediately without sweeping at all. -/
theorem robdd_C5_rebuild_resets_order (nl : Netlist) (g : GState) (o : List String) :
    (rebuildROBDD nl g).1.order = nl.inputs ∧
    rebuildROBDD nl ⟨o, g.store⟩ = rebuildROBDD nl g ∧
    (∀ s : Store, siftVariables nl ⟨[], s⟩ = ⟨[], s⟩) :=
  ⟨rfl, rfl, fun _ => rfl⟩

/-- Claim C7: a gate whose kind is not one of the ten strings the evaluator
recognizes (`nor` and `NOR` included) and whose input list is nonempty
evaluates to the `Zero` terminal, with the store untouched. -/
theorem robdd_C7_unknown_kind_zero (ord : List String) (s : Store) (env : Env) (g : Gate)
    (hne : g.inputs ≠ []) (hkind : g.type ∉ knownKinds) :
    evalGate ord s env g = (some s.zeroId, s) := by
  simp only [knownKinds, List.mem_cons, List.mem_singleton, not_or] at hkind
  obtain ⟨k1, k2, k3, k4, k5, k6, k7, k8, k9, k10⟩ := hkind
  cases hg : g.inputs with
  | nil => exact absurd hg hne
  | cons x rest =>
    simp [evalGate, hg, k1, k2, k3, k4, k5, k6, k7, k8, k9, k10]

/-- Witness for C7: a two-input `nor` gate yields `Zero` on the fresh
context. -/
theorem robdd_C7_witness :
    evalGate ["a", "b"] (mkContext 0) [] ⟨"nor", "y", ["a", "b"]⟩ =
      (some (mkContext 0).zeroId, mkContext 0) :=
  robdd_C7_unknown_kind_zero ["a", "b"] (mkContext 0) [] ⟨"nor", "y", ["a", "b"]⟩
    (by decide) (by decide)

/-- Claim C10: a gate record with an empty input list evaluates to the
`Zero` terminal whatever its kind, for every signal environment, and neither
reads it (the result does not depend on it) nor changes the store. -/
theorem robdd_C10_empty_inputs_zero (ord : List String) (s : Store) (g : Gate)
    (he : g.inputs = []) :
    ∀ env : Env, evalGate ord s env g = (some s.zeroId, s) := by
  intro env
  simp [evalGate, he]

/-- Witness for C10: an `and` gate with no inputs on the fresh context. -/
theorem robdd_C10_witness :
    evalGate [] (mkContext 0) [("x", some 0)] ⟨"and", "y", []⟩ =
      (some (mkContext 0).zeroId, mkContext 0) :=
  robdd_C10_empty_inputs_zero [] (mkContext 0) ⟨"and", "y", []⟩ rfl [("x", some 0)]

/-- The ordering invariant on its own: every decision child of a decision
node carries a strictly larger rank than its parent. -/
def OrderedStore (ord : List String) (s : Store) : Prop :=
  ∀ p ∈ s.nodeTable, ∀ q ∈ s.nodeTable,
    (q.1 = p.2.low ∨ q.1 = p.2.high) →
      getVariableIndex ord p.2.var < getVariableIndex ord q.2.var

instance (ord : List String) (s : Store) : Decidable (OrderedStore ord s) := by
  unfold OrderedStore; infer_instance

/-- Claim C4: in a well-formed context, every decision node produced by
`apply`, by `bddNot`, or by primary-input initialization
(`makeNode(x, Zero, One)`) satisfies the ordering invariant: a decision
child's variable ranks strictly after its parent's, under the variable order
in effect during the build. -/
theorem robdd_C4_ordering (ord : List String) (s : Store) (hInv : Inv ord s) :
    (∀ (f g : Nat) (op : Bool → Bool → Bool), ValidRef s f → ValidRef s g →
      OrderedStore ord (applyC ord s f g op).2) ∧
    (∀ f : Nat, ValidRef s f → OrderedStore ord (bddNotC s f).2) ∧
    (∀ x : String, x ∈ ord → x ≠ "" → OrderedStore ord (makeNode x s.zeroId s.oneId s).2) := by
  refine ⟨?_, ?_, ?_⟩
  · intro f g op hf hg
    exact (applyC_spec ord op s f g hInv hf hg).2.1.ordered
  · intro f hf
    exact (bddNotC_spec ord s f hInv hf).2.1.ordered
  · intro x hx hne
    have hz : getVariableIndex ord x < topIdx ord s s.zeroId := by
      unfold topIdx
      rw [findNode_zero hInv]
      exact getVariableIndex_lt ord hx
    have ho : getVariableIndex ord x < topIdx ord s s.oneId := by
      unfold topIdx
      rw [findNode_one hInv]
      exact getVariableIndex_lt ord hx
    exact (makeNode_spec ord hInv hx hne (Or.inl rfl) (Or.inr (Or.inl rfl)) hz ho).2.1.ordered

/-- Witness for C4: the context `["a"]` with the single-variable node. -/
theorem robdd_C4_witness :
    OrderedStore ["a"] (applyC ["a"] (makeNode "a" 0 1 (mkContext 0)).2 2 0 AndOp).2 :=
  (robdd_C4_ordering ["a"] (makeNode "a" 0 1 (mkContext 0)).2
    (by constructor <;> decide)).1 2 0 AndOp (by decide) (by decide)

/-- Claim C2: within one context — terminals fixed, decision nodes created
through `makeNode` under the context invariant the build maintains for a
fixed variable order — two node references represent the same Boolean
function if and only if they are the same id. -/
theorem robdd_C2_canonicity (ord : List String) (s : Store) (hInv : Inv ord s)
    (i j : Nat) (hi : ValidRef s i) (hj : ValidRef s j) :
    (∀ a, evalB s i a = evalB s j a) ↔ i = j :=
  canonicity ord hInv hi hj

/-- Witness for C2: in the context `["a"]`, the decision node for `a` and
the `Zero` terminal denote different functions, and the ids differ. -/
theorem robdd_C2_witness :
    ((∀ a, evalB (makeNode "a" 0 1 (mkContext 0)).2 2 a =
        evalB (makeNode "a" 0 1 (mkContext 0)).2 0 a) ↔ (2 : Nat) = 0) :=
  robdd_C2_canonicity ["a"] (makeNode "a" 0 1 (mkContext 0)).2
    (by constructor <;> decide) 2 0 (by decide) (by decide)

/-- Claim C8: the `apply` identities.  In a well-formed context,
`apply(f, Zero, OR)` and `apply(f, One, AND)` return `f` itself,
`apply(f, f, XOR)` returns the `Zero` terminal, and
`apply(f, bddNot(f), AND)` (with the complement built first, as a caller
would) returns the `Zero` terminal. -/
theorem robdd_C8_identities (ord : List String) (s : Store) (hInv : Inv ord s)
    (f : Nat) (hf : ValidRef s f) :
    (applyC ord s f s.zeroId OrOp).1 = f ∧
    (applyC ord s f s.oneId AndOp).1 = f ∧
    (applyC ord s f f XorOp).1 = s.zeroId ∧
    (applyC ord (bddNotC s f).2 f (bddNotC s f).1 AndOp).1 = s.zeroId := by
  have hflt : f < s.nextId := ValidRef_lt hInv hf
  refine ⟨?_, ?_, ?_, ?_⟩
  · obtain ⟨hExt, hInv', hval, _, heval⟩ :=
      applyC_spec ord OrOp s f s.zeroId hInv hf (Or.inl rfl)
    refine (canonicity ord hInv' hval (Ext.validRef hInv hExt hf)).mp ?_
    intro a
    rw [heval a, evalB_zero, evalB_ext hInv.childLt hExt a hflt]
    simp [OrOp]
  · obtain ⟨hExt, hInv', hval, _, heval⟩ :=
      applyC_spec ord AndOp s f s.oneId hInv hf (Or.inr (Or.inl rfl))
    refine (canonicity ord hInv' hval (Ext.validRef hInv hExt hf)).mp ?_
    intro a
    rw [heval a, evalB_one s a hInv.zero_ne_one, evalB_ext hInv.childLt hExt a hflt]
    simp [AndOp]
  · obtain ⟨hExt, hInv', hval, _, heval⟩ :=
      applyC_spec ord XorOp s f f hInv hf hf
    have hzval : ValidRef (applyC ord s f f XorOp).2 s.zeroId := Or.inl hExt.1
    refine (canonicity ord hInv' hval hzval).mp ?_
    intro a
    rw [heval a, hExt.1, evalB_zero]
    simp [XorOp]
  · obtain ⟨hExt1, hInv1, hval1, _, heval1⟩ := bddNotC_spec ord s f hInv hf
    obtain ⟨hExt2, hInv2, hval2, _, heval2⟩ :=
      applyC_spec ord AndOp (bddNotC s f).2 f (bddNotC s f).1 hInv1
        (Ext.validRef hInv hExt1 hf) hval1
    have hzval : ValidRef (applyC ord (bddNotC s f).2 f (bddNotC s f).1 AndOp).2 s.zeroId :=
      Or.inl (hExt1.1.trans hExt2.1)
    refine (canonicity ord hInv2 hval2 hzval).mp ?_
    intro a
    have hz01 : s.zeroId = (applyC ord (bddNotC s f).2 f (bddNotC s f).1 AndOp).2.zeroId :=
      hExt1.1.trans hExt2.1
    rw [heval2 a, heval1 a, evalB_ext hInv.childLt hExt1 a hflt, hz01, evalB_zero]
    simp [AndOp]

/-- Witness for C8: the identities at the single-variable node of the
context `["a"]`. -/
theorem robdd_C8_witness :
    (applyC ["a"] (makeNode "a" 0 1 (mkContext 0)).2 2
        (makeNode "a" 0 1 (mkContext 0)).2.zeroId OrOp).1 = 2 ∧
    (applyC ["a"] (makeNode "a" 0 1 (mkContext 0)).2 2
        (makeNode "a" 0 1 (mkContext 0)).2.oneId AndOp).1 = 2 ∧
    (applyC ["a"] (makeNode "a" 0 1 (mkContext 0)).2 2 2 XorOp).1 =
        (makeNode "a" 0 1 (mkContext 0)).2.zeroId ∧
    (applyC ["a"] (bddNotC (makeNode "a" 0 1 (mkContext 0)).2 2).2 2
        (bddNotC (makeNode "a" 0 1 (mkContext 0)).2 2).1 AndOp).1 =
        (makeNode "a" 0 1 (mkContext 0)).2.zeroId :=
  robdd_C8_identities ["a"] (makeNode "a" 0 1 (mkContext 0)).2
    (by constructor <;> decide) 2 (by decide)

/-! ### Missing-input policy of the evaluator -/

/-- The gate kinds evaluated by the `apply` left-fold. -/
def binaryKinds : List String := ["and", "AND", "or", "OR", "xor", "XOR", "nand", "NAND"]

theorem makeNode_zeroId (v : String) (l h : Nat) (s : Store) :
    (makeNode v l h s).2.zeroId = s.zeroId ∧ (makeNode v l h s).2.oneId = s.oneId := by
  by_cases hlh : l = h
  · simp [makeNode, hlh]
  · cases hu : findUnique s (v, l, h) with
    | some i => simp [makeNode, hlh, hu]
    | none => simp [makeNode, hlh, hu]

theorem applyN_zeroId (ord : List String) (op : Bool → Bool → Bool) :
    ∀ (fuel : Nat) (s : Store) (f g : Nat),
      (applyN ord op fuel s f g).2.zeroId = s.zeroId ∧
      (applyN ord op fuel s f g).2.oneId = s.oneId := by
  intro fuel
  induction fuel with
  | zero => intro s f g; exact ⟨rfl, rfl⟩
  | succ fuel ih =>
    intro s f g
    by_cases hterm : isTerminal s f ∧ isTerminal s g
    · rw [show applyN ord op (fuel + 1) s f g =
          (if op (valueOf s f) (valueOf s g) then s.oneId else s.zeroId, s) from by
        simp only [applyN]; rw [if_pos hterm]]
      exact ⟨rfl, rfl⟩
    · by_cases hfg : rankOf ord s f < rankOf ord s g
      · rw [show applyN ord op (fuel + 1) s f g =
            makeNode (topVarOf s f) (applyN ord op fuel s (nodeLow s f) g).1
              (applyN ord op fuel (applyN ord op fuel s (nodeLow s f) g).2 (nodeHigh s f) g).1
              (applyN ord op fuel (applyN ord op fuel s (nodeLow s f) g).2 (nodeHigh s f) g).2
            from by simp only [applyN]; rw [if_neg hterm, if_pos hfg]]
        rw [(makeNode_zeroId _ _ _ _).1, (makeNode_zeroId _ _ _ _).2,
            (ih _ _ _).1, (ih _ _ _).2, (ih _ _ _).1, (ih _ _ _).2]
        exact ⟨rfl, rfl⟩
      · by_cases hgf : rankOf ord s g < rankOf ord s f
        · rw [show applyN ord op (fuel + 1) s f g =
              makeNode (topVarOf s g) (applyN ord op fuel s f (nodeLow s g)).1
                (applyN ord op fuel (applyN ord op fuel s f (nodeLow s g)).2 f (nodeHigh s g)).1
                (applyN ord op fuel (applyN ord op fuel s f (nodeLow s g)).2 f (nodeHigh s g)).2
              from by simp only [applyN]; rw [if_neg hterm, if_neg hfg, if_pos hgf]]
          rw [(makeNode_zeroId _ _ _ _).1, (makeNode_zeroId _ _ _ _).2,
              (ih _ _ _).1, (ih _ _ _).2, (ih _ _ _).1, (ih _ _ _).2]
          exact ⟨rfl, rfl⟩
        · rw [show applyN ord op (fuel + 1) s f g =
              makeNode (topVarOf s f) (applyN ord op fuel s (nodeLow s f) (nodeLow s g)).1
                (applyN ord op fuel (applyN ord op fuel s (nodeLow s f) (nodeLow s g)).2
                  (nodeHigh s f) (nodeHigh s g)).1
                (applyN ord op fuel (applyN ord op fuel s (nodeLow s f) (nodeLow s g)).2
                  (nodeHigh s f) (nodeHigh s g)).2
              from by simp only [applyN]; rw [if_neg hterm, if_neg hfg, if_neg hgf]]
          rw [(makeNode_zeroId _ _ _ _).1, (makeNode_zeroId _ _ _ _).2,
              (ih _ _ _).1, (ih _ _ _).2, (ih _ _ _).1, (ih _ _ _).2]
          exact ⟨rfl, rfl⟩

theorem applyC_zeroId (ord : List String) (s : Store) (f g : Nat) (op : Bool → Bool → Bool) :
    (applyC ord s f g op).2.zeroId = s.zeroId :=
  (applyN_zeroId ord op (f + g + 1) s f g).1

theorem getSignalBDD_set (env : Env) (y : String) (v : Option Nat) (w : String) :
    getSignalBDD (setSignalBDD env y v) w = if y = w then v else getSignalBDD env w := by
  by_cases h : y = w <;> simp [getSignalBDD, setSignalBDD, alookup_cons, h]

/-- Two environments that read the same (up to the `Zero` default) on every
remaining input give the same fold. -/
theorem foldOp_congr (ord : List String) (op : Bool → Bool → Bool) (env env' : Env) :
    ∀ (rest : List String) (s : Store) (acc : Nat),
      (∀ w ∈ rest, (getSignalBDD env' w).getD s.zeroId = (getSignalBDD env w).getD s.zeroId) →
      foldOp ord op env' s acc rest = foldOp ord op env s acc rest := by
  intro rest
  induction rest with
  | nil => intro s acc _; rfl
  | cons w ws ih =>
    intro s acc hsame
    show foldOp ord op env'
        (applyC ord s acc ((getSignalBDD env' w).getD s.zeroId) op).2
        (applyC ord s acc ((getSignalBDD env' w).getD s.zeroId) op).1 ws =
      foldOp ord op env
        (applyC ord s acc ((getSignalBDD env w).getD s.zeroId) op).2
        (applyC ord s acc ((getSignalBDD env w).getD s.zeroId) op).1 ws
    rw [hsame w (List.mem_cons_self _ _)]
    refine ih _ _ ?_
    intro u hu
    rw [applyC_zeroId]
    exact hsame u (List.mem_cons_of_mem _ hu)

/-- Counterexample to claim C6 as stated: a `not` gate whose first (only)
input has no binding returns the `Zero` terminal directly — it does **not**
substitute `Zero` for the missing input, which would give
`bddNot(Zero) = One`. -/
theorem robdd_C6_counterexample :
    evalGate ["x"] (mkContext 0) [] ⟨"not", "y", ["x"]⟩ = (some 0, mkContext 0) ∧
    evalGate ["x"] (mkContext 0) [("x", some 0)] ⟨"not", "y", ["x"]⟩ = (some 1, mkContext 0) ∧
    (0 : Nat) ≠ 1 := by
  refine ⟨by decide, by decide, by decide⟩

/-- Claim C6 as amended: for `and`/`or`/`xor`/`nand` gates whose first input
is bound, a missing binding at any later input position is substituted with
the `Zero` terminal (evaluation is unchanged if that signal is instead bound
to `Zero`), and no error is surfaced.  A missing binding at the **first**
input is not substituted: a `not`/`NOT` gate returns `Zero` directly, and a
binary-kind gate whose *only* input is unbound returns the null signal (when
further inputs follow an unbound first input the C++ dereferences a null
pointer — undefined behavior — and nothing is asserted here). -/
theorem robdd_C6_missing_input (ord : List String) (s : Store) (env : Env) (g : Gate)
    (x : String) (rest : List String) (hg : g.inputs = x :: rest) :
    (g.type ∈ binaryKinds → ∀ n, getSignalBDD env x = some n →
      ∀ y ∈ rest, getSignalBDD env y = none →
        evalGate ord s env g = evalGate ord s (setSignalBDD env y (some s.zeroId)) g) ∧
    ((g.type = "not" ∨ g.type = "NOT") → getSignalBDD env x = none →
      evalGate ord s env g = (some s.zeroId, s)) ∧
    (g.type ∈ binaryKinds → rest = [] → getSignalBDD env x = none →
      evalGate ord s env g = (none, s)) := by
  refine ⟨?_, ?_, ?_⟩
  · intro hkind n hx y hy hymiss
    have hxy : x ≠ y := by
      intro h
      rw [h, hymiss] at hx
      exact absurd hx (by simp)
    have hsame : ∀ w ∈ rest,
        (getSignalBDD (setSignalBDD env y (some s.zeroId)) w).getD s.zeroId =
        (getSignalBDD env w).getD s.zeroId := by
      intro w hw
      rw [getSignalBDD_set]
      by_cases hyw : y = w
      · rw [if_pos hyw, ← hyw, hymiss]
        rfl
      · rw [if_neg hyw]
    have hx' : getSignalBDD (setSignalBDD env y (some s.zeroId)) x = some n := by
      rw [getSignalBDD_set, if_neg (fun h => hxy h.symm)]
      exact hx
    have hfold : ∀ op, foldOp ord op (setSignalBDD env y (some s.zeroId)) s n rest =
        foldOp ord op env s n rest := fun op =>
      foldOp_congr ord op env (setSignalBDD env y (some s.zeroId)) rest s n hsame
    simp only [binaryKinds, List.mem_cons, List.not_mem_nil, or_false] at hkind
    rcases hkind with h | h | h | h | h | h | h | h
    all_goals simp [evalGate, hg, h, hx, hx', hfold]
  · intro hkind hx
    rcases hkind with h | h <;> simp [evalGate, hg, h, hx]
  · intro hkind hrest hx
    subst hrest
    simp only [binaryKinds, List.mem_cons, List.not_mem_nil, or_false] at hkind
    rcases hkind with h | h | h | h | h | h | h | h
    all_goals simp [evalGate, hg, h, hx]

/-- Witness for the amended C6 at concrete gates: `and g(y, x, w)` with `x`
bound and `w` unbound behaves as if `w` were bound to `Zero`, and a
single-input `and g(y, x)` with `x` unbound yields the null signal. -/
theorem robdd_C6_witness :
    (evalGate ["x", "w"] (mkContext 0) [("x", some 0)] ⟨"and", "y", ["x", "w"]⟩ =
      evalGate ["x", "w"] (mkContext 0)
        (setSignalBDD [("x", some 0)] "w" (some (mkContext 0).zeroId))
        ⟨"and", "y", ["x", "w"]⟩) ∧
    evalGate ["x"] (mkContext 0) [] ⟨"and", "y", ["x"]⟩ = (none, mkContext 0) :=
  ⟨(robdd_C6_missing_input ["x", "w"] (mkContext 0) [("x", some 0)] ⟨"and", "y", ["x", "w"]⟩
      "x" ["w"] rfl).1 (by decide) 0 (by decide) "w" (by decide) (by decide),
   (robdd_C6_missing_input ["x"] (mkContext 0) [] ⟨"and", "y", ["x"]⟩
      "x" [] rfl).2.2 (by decide) rfl (by decide)⟩

/-! ### Truth-table round trip -/

theorem topoOk_cons_iff {avail : List String} {g : Gate} {rest : List Gate} :
    topoOk avail (g :: rest) = true ↔
      (∀ x ∈ g.inputs, x ∈ avail) ∧ topoOk (g.output :: avail) rest = true := by
  show ((g.inputs.all fun x => avail.contains x) && topoOk (g.output :: avail) rest) = true ↔ _
  rw [Bool.and_eq_true, List.all_eq_true]
  constructor
  · intro ⟨h1, h2⟩
    exact ⟨fun x hx => by simpa using h1 x hx, h2⟩
  · intro ⟨h1, h2⟩
    exact ⟨fun x hx => by simpa using h1 x hx, h2⟩

/-- Signals that none of the folded gates drives keep their bindings. -/
theorem boolFold_stable :
    ∀ (gs : List Gate) (benv : List (String × Bool)) (x : String),
      (∀ g ∈ gs, g.output ≠ x) →
      alookup (boolFold gs benv) x = alookup benv x := by
  intro gs
  induction gs with
  | nil => intro benv x _; rfl
  | cons g rest ih =>
    intro benv x h
    show alookup (boolFold rest ((g.output, evalGateBool benv g) :: benv)) x = _
    rw [ih _ x (fun g' hg' => h g' (List.mem_cons_of_mem _ hg')), alookup_cons,
      if_neg (h g (List.mem_cons_self _ _))]

/-- Signals outside the list of seeded inputs keep their bindings. -/
theorem inputVals_stable (a : String → Bool) :
    ∀ (xs : List String) (b : List (String × Bool)) (x : String), x ∉ xs →
      alookup (xs.foldl (fun e y => (y, a y) :: e) b) x = alookup b x := by
  intro xs
  induction xs with
  | nil => intro b x _; rfl
  | cons y ys ih =>
    intro b x hx
    rw [List.mem_cons, not_or] at hx
    show alookup (ys.foldl (fun e z => (z, a z) :: e) ((y, a y) :: b)) x = _
    rw [ih ((y, a y) :: b) x hx.2, alookup_cons, if_neg (fun h => hx.1 h.symm)]

/-- A seeded primary input reads back its assigned value. -/
theorem inputVals_lookup (a : String → Bool) :
    ∀ (xs : List String) (b : List (String × Bool)) (x : String), xs.Nodup → x ∈ xs →
      alookup (xs.foldl (fun e y => (y, a y) :: e) b) x = some (a x) := by
  intro xs
  induction xs with
  | nil => intro b x _ hx; exact absurd hx (List.not_mem_nil x)
  | cons y ys ih =>
    intro b x hnd hx
    obtain ⟨hy, hnd'⟩ := List.nodup_cons.mp hnd
    show alookup (ys.foldl (fun e z => (z, a z) :: e) ((y, a y) :: b)) x = _
    rcases List.mem_cons.mp hx with h | h
    · subst h
      rw [inputVals_stable a ys ((x, a x) :: b) x hy, alookup_cons, if_pos rfl]
    · exact ih ((y, a y) :: b) x hnd' h

/-- The evaluator's raw Boolean left-fold only depends on the values its
environment reads on the folded signals. -/
theorem foldBoolOp_congr (op : Bool → Bool → Bool) :
    ∀ (rest : List String) (benv1 benv2 : List (String × Bool)) (b : Bool),
      (∀ y ∈ rest, (alookup benv1 y).getD false = (alookup benv2 y).getD false) →
      rest.foldl (fun acc y => op acc ((alookup benv1 y).getD false)) b =
        rest.foldl (fun acc y => op acc ((alookup benv2 y).getD false)) b := by
  intro rest
  induction rest with
  | nil => intro _ _ _ _; rfl
  | cons y ys ih =>
    intro benv1 benv2 b h
    rw [List.foldl_cons, List.foldl_cons, h y (List.mem_cons_self _ _)]
    exact ih benv1 benv2 _ (fun z hz => h z (List.mem_cons_of_mem _ hz))

/-- Direct gate simulation only depends on the values the environment reads
on the gate's own inputs. -/
theorem evalGateBool_congr (benv1 benv2 : List (String × Bool)) (g : Gate)
    (h : ∀ x ∈ g.inputs, (alookup benv1 x).getD false = (alookup benv2 x).getD false) :
    evalGateBool benv1 g = evalGateBool benv2 g := by
  cases hgi : g.inputs with
  | nil => simp [evalGateBool, hgi]
  | cons x rest =>
    have hx : (alookup benv1 x).getD false = (alookup benv2 x).getD false :=
      h x (hgi ▸ List.mem_cons_self _ _)
    have hrest : ∀ y ∈ rest, (alookup benv1 y).getD false = (alookup benv2 y).getD false :=
      fun y hy => h y (hgi ▸ List.mem_cons_of_mem _ hy)
    simp only [evalGateBool, hgi]
    by_cases h1 : g.type = "not" ∨ g.type = "NOT"
    · rw [if_pos h1, if_pos h1, hx]
    · rw [if_neg h1, if_neg h1]
      by_cases h2 : g.type = "and" ∨ g.type = "AND"
      · rw [if_pos h2, if_pos h2, hx]
        exact foldBoolOp_congr AndOp rest benv1 benv2 _ hrest
      · rw [if_neg h2, if_neg h2]
        by_cases h3 : g.type = "or" ∨ g.type = "OR"
        · rw [if_pos h3, if_pos h3, hx]
          exact foldBoolOp_congr OrOp rest benv1 benv2 _ hrest
        · rw [if_neg h3, if_neg h3]
          by_cases h4 : g.type = "xor" ∨ g.type = "XOR"
          · rw [if_pos h4, if_pos h4, hx]
            exact foldBoolOp_congr XorOp rest benv1 benv2 _ hrest
          · rw [if_neg h4, if_neg h4]
            by_cases h5 : g.type = "nand" ∨ g.type = "NAND"
            · rw [if_pos h5, if_pos h5, hx]
              exact foldBoolOp_congr NandOp rest benv1 benv2 _ hrest
            · rw [if_neg h5, if_neg h5]

/-- In a dependency-ordered Boolean simulation, the final value stored for a
gate's output is that gate's function applied to the final values of its
inputs.  This makes the dependency-ordered fold a genuine *fixpoint* of the
netlist equations, independent of the particular order chosen. -/
theorem boolFold_gate_val :
    ∀ (gs : List Gate) (avail : List String) (benv : List (String × Bool)),
      topoOk avail gs = true →
      (gs.map Gate.output).Nodup →
      (∀ g ∈ gs, g.output ∉ avail) →
      ∀ g ∈ gs, (alookup (boolFold gs benv) g.output).getD false =
        evalGateBool (boolFold gs benv) g := by
  intro gs
  induction gs with
  | nil => intro avail benv _ _ _ g hg; exact absurd hg (List.not_mem_nil g)
  | cons g0 tail ih =>
    intro avail benv htopo hnd hout g hg
    obtain ⟨hin0, htail⟩ := topoOk_cons_iff.mp htopo
    have hnd' : (tail.map Gate.output).Nodup := (List.nodup_cons.mp (by simpa using hnd)).2
    have h0nt : g0.output ∉ tail.map Gate.output :=
      (List.nodup_cons.mp (by simpa using hnd)).1
    have hbf : boolFold (g0 :: tail) benv =
        boolFold tail ((g0.output, evalGateBool benv g0) :: benv) := rfl
    have hstable : ∀ x ∈ avail,
        alookup (boolFold tail ((g0.output, evalGateBool benv g0) :: benv)) x =
          alookup benv x := by
      intro x hx
      have h1 : ∀ g' ∈ tail, g'.output ≠ x := by
        intro g' hg' he
        exact hout g' (List.mem_cons_of_mem _ hg') (by rw [he]; exact hx)
      have h2 : g0.output ≠ x := by
        intro he
        exact hout g0 (List.mem_cons_self _ _) (by rw [he]; exact hx)
      rw [boolFold_stable tail _ x h1, alookup_cons, if_neg h2]
    rcases List.mem_cons.mp hg with rfl | hgt
    · rw [hbf]
      have hv : alookup (boolFold tail ((g.output, evalGateBool benv g) :: benv))
          g.output = some (evalGateBool benv g) := by
        have h1 : ∀ g' ∈ tail, g'.output ≠ g.output := by
          intro g' hg' he
          exact h0nt (he ▸ List.mem_map.mpr ⟨g', hg', rfl⟩)
        rw [boolFold_stable tail _ _ h1, alookup_cons, if_pos rfl]
      rw [hv, Option.getD_some]
      refine evalGateBool_congr benv _ g ?_
      intro x hx
      rw [hstable x (hin0 x hx)]
    · rw [hbf]
      refine ih (g0.output :: avail) ((g0.output, evalGateBool benv g0) :: benv)
        htail hnd' ?_ g hgt
      intro g' hg' hmem
      rcases List.mem_cons.mp hmem with he | he
      · exact h0nt (he ▸ List.mem_map.mpr ⟨g', hg', rfl⟩)
      · exact hout g' (List.mem_cons_of_mem _ hg') he

/-- One-directional correspondence of the BDD signal environment against a
fixed reference Boolean environment: every bound diagram is a valid node
evaluating to the reference value of its signal. -/
def EnvVals (s : Store) (env : Env) (benvF : List (String × Bool)) (a : String → Bool) : Prop :=
  ∀ x n, getSignalBDD env x = some n →
    ValidRef s n ∧ evalB s n a = (alookup benvF x).getD false

theorem EnvVals.mono {ord : List String} {s s' : Store} {env : Env}
    {benvF : List (String × Bool)} {a : String → Bool}
    (hInv : Inv ord s) (hExt : Ext s s') (h : EnvVals s env benvF a) :
    EnvVals s' env benvF a := by
  intro x n hx
  obtain ⟨hval, heval⟩ := h x n hx
  exact ⟨Ext.validRef hInv hExt hval,
    by rw [evalB_ext hInv.childLt hExt a (ValidRef_lt hInv hval)]; exact heval⟩

/-- Soundness of the gate-input fold when every folded input is bound: it
computes the Boolean fold of the reference input values. -/
theorem foldOp_specB (ord : List String) (op : Bool → Bool → Bool) (a : String → Bool) :
    ∀ (rest : List String) (s : Store) (env : Env) (benvF : List (String × Bool))
      (acc : Nat) (bacc : Bool),
      Inv ord s → EnvVals s env benvF a →
      (∀ y ∈ rest, (getSignalBDD env y).isSome) →
      ValidRef s acc → evalB s acc a = bacc →
      Ext s (foldOp ord op env s acc rest).2 ∧
      Inv ord (foldOp ord op env s acc rest).2 ∧
      ValidRef (foldOp ord op env s acc rest).2 (foldOp ord op env s acc rest).1 ∧
      evalB (foldOp ord op env s acc rest).2 (foldOp ord op env s acc rest).1 a =
        rest.foldl (fun b y => op b ((alookup benvF y).getD false)) bacc := by
  intro rest
  induction rest with
  | nil =>
    intro s env benvF acc bacc hInv _ _ hval heval
    exact ⟨Ext.refl s, hInv, hval, heval⟩
  | cons x ws ih =>
    intro s env benvF acc bacc hInv hvals hbound hval heval
    have hin : ValidRef s ((getSignalBDD env x).getD s.zeroId) ∧
        evalB s ((getSignalBDD env x).getD s.zeroId) a = (alookup benvF x).getD false := by
      cases hx : getSignalBDD env x with
      | some n =>
        obtain ⟨h1, h2⟩ := hvals x n hx
        exact ⟨h1, h2⟩
      | none =>
        have hb := hbound x (List.mem_cons_self _ _)
        rw [hx] at hb
        exact absurd hb (by simp)
    obtain ⟨hExt1, hInv1, hval1, _, heval1⟩ :=
      applyC_spec ord op s acc ((getSignalBDD env x).getD s.zeroId) hInv hval hin.1
    have hstep : evalB (applyC ord s acc ((getSignalBDD env x).getD s.zeroId) op).2
        (applyC ord s acc ((getSignalBDD env x).getD s.zeroId) op).1 a =
        op bacc ((alookup benvF x).getD false) := by
      rw [heval1 a, heval, hin.2]
    obtain ⟨hExt2, hInv2, hval2, heval2⟩ :=
      ih (applyC ord s acc ((getSignalBDD env x).getD s.zeroId) op).2 env benvF
        (applyC ord s acc ((getSignalBDD env x).getD s.zeroId) op).1
        (op bacc ((alookup benvF x).getD false)) hInv1
        (EnvVals.mono hInv hExt1 hvals)
        (fun y hy => hbound y (List.mem_cons_of_mem _ hy)) hval1 hstep
    exact ⟨hExt1.trans hExt2, hInv2, hval2, heval2⟩

/-- Soundness of `evaluateGate` on a recognized gate whose inputs are all
bound in the signal environment: it returns a non-null diagram evaluating to
the direct Boolean simulation of the gate under the reference values. -/
theorem evalGate_specB (ord : List String) (a : String → Bool) (s : Store) (env : Env)
    (benvF : List (String × Bool)) (g : Gate)
    (hInv : Inv ord s) (hvals : EnvVals s env benvF a)
    (hkind : g.type ∈ knownKinds) (hne : g.inputs ≠ [])
    (hbound : ∀ x ∈ g.inputs, (getSignalBDD env x).isSome) :
    Ext s (evalGate ord s env g).2 ∧ Inv ord (evalGate ord s env g).2 ∧
    ∃ r, (evalGate ord s env g).1 = some r ∧ ValidRef (evalGate ord s env g).2 r ∧
      evalB (evalGate ord s env g).2 r a = evalGateBool benvF g := by
  cases hgi : g.inputs with
  | nil => exact absurd hgi hne
  | cons x rest =>
    have hx : ∃ n, getSignalBDD env x = some n :=
      Option.isSome_iff_exists.mp (hbound x (hgi ▸ List.mem_cons_self _ _))
    obtain ⟨n, hx⟩ := hx
    obtain ⟨hvn, hen⟩ := hvals x n hx
    have hbrest : ∀ y ∈ rest, (getSignalBDD env y).isSome :=
      fun y hy => hbound y (hgi ▸ List.mem_cons_of_mem _ hy)
    simp only [knownKinds, List.mem_cons, List.not_mem_nil, or_false] at hkind
    rcases hkind with h | h | h | h | h | h | h | h | h | h
    case inl =>
      have heq : evalGate ord s env g = (some (bddNotC s n).1, (bddNotC s n).2) := by
        simp [evalGate, hgi, h, hx]
      obtain ⟨hExt, hInv', hval, _, heval⟩ := bddNotC_spec ord s n hInv hvn
      rw [heq]
      refine ⟨hExt, hInv', (bddNotC s n).1, rfl, hval, ?_⟩
      rw [heval a, hen]
      simp [evalGateBool, hgi, h]
    case inr.inl =>
      have heq : evalGate ord s env g = (some (bddNotC s n).1, (bddNotC s n).2) := by
        simp [evalGate, hgi, h, hx]
      obtain ⟨hExt, hInv', hval, _, heval⟩ := bddNotC_spec ord s n hInv hvn
      rw [heq]
      refine ⟨hExt, hInv', (bddNotC s n).1, rfl, hval, ?_⟩
      rw [heval a, hen]
      simp [evalGateBool, hgi, h]
    all_goals {
      first
      | (have heq : evalGate ord s env g =
            (some (foldOp ord AndOp env s n rest).1, (foldOp ord AndOp env s n rest).2) := by
          simp [evalGate, hgi, h, hx]
         obtain ⟨hExt, hInv', hval, heval⟩ :=
           foldOp_specB ord AndOp a rest s env benvF n ((alookup benvF x).getD false)
             hInv hvals hbrest hvn hen
         rw [heq]
         exact ⟨hExt, hInv', _, rfl, hval, by rw [heval]; simp [evalGateBool, hgi, h]⟩)
      | (have heq : evalGate ord s env g =
            (some (foldOp ord OrOp env s n rest).1, (foldOp ord OrOp env s n rest).2) := by
          simp [evalGate, hgi, h, hx]
         obtain ⟨hExt, hInv', hval, heval⟩ :=
           foldOp_specB ord OrOp a rest s env benvF n ((alookup benvF x).getD false)
             hInv hvals hbrest hvn hen
         rw [heq]
         exact ⟨hExt, hInv', _, rfl, hval, by rw [heval]; simp [evalGateBool, hgi, h]⟩)
      | (have heq : evalGate ord s env g =
            (some (foldOp ord XorOp env s n rest).1, (foldOp ord XorOp env s n rest).2) := by
          simp [evalGate, hgi, h, hx]
         obtain ⟨hExt, hInv', hval, heval⟩ :=
           foldOp_specB ord XorOp a rest s env benvF n ((alookup benvF x).getD false)
             hInv hvals hbrest hvn hen
         rw [heq]
         exact ⟨hExt, hInv', _, rfl, hval, by rw [heval]; simp [evalGateBool, hgi, h]⟩)
      | (have heq : evalGate ord s env g =
            (some (foldOp ord NandOp env s n rest).1, (foldOp ord NandOp env s n rest).2) := by
          simp [evalGate, hgi, h, hx]
         obtain ⟨hExt, hInv', hval, heval⟩ :=
           foldOp_specB ord NandOp a rest s env benvF n ((alookup benvF x).getD false)
             hInv hvals hbrest hvn hen
         rw [heq]
         exact ⟨hExt, hInv', _, rfl, hval, by rw [heval]; simp [evalGateBool, hgi, h]⟩)
    }

/-- Soundness of the primary-input initialization: the final environment
binds a signal exactly when it is one of the initialized inputs or was bound
before, and every binding is a fresh single-variable diagram denoting that
input's assigned value. -/
theorem initInputBDDs_specV (ord : List String) (a : String → Bool) :
    ∀ (xs : List String) (env : Env) (s : Store),
      Inv ord s →
      (∀ y m, getSignalBDD env y = some m → ValidRef s m ∧ evalB s m a = a y) →
      (∀ x ∈ xs, x ∈ ord ∧ x ≠ "") →
      Ext s (initInputBDDs xs env s).2 ∧ Inv ord (initInputBDDs xs env s).2 ∧
      (∀ y, (getSignalBDD (initInputBDDs xs env s).1 y).isSome ↔
        (y ∈ xs ∨ (getSignalBDD env y).isSome)) ∧
      (∀ y m, getSignalBDD (initInputBDDs xs env s).1 y = some m →
        ValidRef (initInputBDDs xs env s).2 m ∧
          evalB (initInputBDDs xs env s).2 m a = a y) := by
  intro xs
  induction xs with
  | nil =>
    intro env s hInv hvals _
    exact ⟨Ext.refl s, hInv, fun y => by simp [initInputBDDs], hvals⟩
  | cons x ys ih =>
    intro env s hInv hvals hin
    have hx := hin x (List.mem_cons_self _ _)
    have hz : getVariableIndex ord x < topIdx ord s s.zeroId := by
      unfold topIdx
      rw [findNode_zero hInv]
      exact getVariableIndex_lt ord hx.1
    have ho : getVariableIndex ord x < topIdx ord s s.oneId := by
      unfold topIdx
      rw [findNode_one hInv]
      exact getVariableIndex_lt ord hx.1
    obtain ⟨hExt, hInv', hval, _, heval⟩ :=
      makeNode_spec ord hInv hx.1 hx.2 (Or.inl rfl) (Or.inr (Or.inl rfl)) hz ho
    have hevalx : evalB (makeNode x s.zeroId s.oneId s).2 (makeNode x s.zeroId s.oneId s).1 a
        = a x := by
      rw [heval a, evalB_one s a hInv.zero_ne_one, evalB_zero]
      cases a x <;> simp
    have hvals' : ∀ y m,
        getSignalBDD (setSignalBDD env x (some (makeNode x s.zeroId s.oneId s).1)) y = some m →
        ValidRef (makeNode x s.zeroId s.oneId s).2 m ∧
          evalB (makeNode x s.zeroId s.oneId s).2 m a = a y := by
      intro y m hy
      rw [getSignalBDD_set] at hy
      by_cases hxy : x = y
      · rw [if_pos hxy] at hy
        obtain rfl : (makeNode x s.zeroId s.oneId s).1 = m := by simpa using hy
        subst hxy
        exact ⟨hval, hevalx⟩
      · rw [if_neg hxy] at hy
        obtain ⟨h1, h2⟩ := hvals y m hy
        exact ⟨Ext.validRef hInv hExt h1,
          by rw [evalB_ext hInv.childLt hExt a (ValidRef_lt hInv h1)]; exact h2⟩
    obtain ⟨hExt2, hInv2, hdom2, hvals2⟩ :=
      ih (setSignalBDD env x (some (makeNode x s.zeroId s.oneId s).1))
        (makeNode x s.zeroId s.oneId s).2 hInv' hvals'
        (fun y hy => hin y (List.mem_cons_of_mem _ hy))
    refine ⟨hExt.trans hExt2, hInv2, ?_, hvals2⟩
    intro y
    show (getSignalBDD (initInputBDDs ys (setSignalBDD env x
        (some (makeNode x s.zeroId s.oneId s).1)) (makeNode x s.zeroId s.oneId s).2).1
        y).isSome ↔ (y ∈ x :: ys ∨ (getSignalBDD env y).isSome)
    rw [hdom2 y, getSignalBDD_set]
    by_cases hxy : x = y
    · simp [hxy]
    · rw [if_neg hxy]
      simp only [List.mem_cons]
      constructor
      · rintro (h | h)
        · exact Or.inl (Or.inr h)
        · exact Or.inr h
      · rintro ((h | h) | h)
        · exact absurd h.symm hxy
        · exact Or.inl h
        · exact Or.inr h

/-- The invariant the multi-pass scheduler of `processGates` maintains,
relative to a fixed reference Boolean environment `benvF` (the final values
of a dependency-ordered direct simulation): `done` lists the gates processed
so far, the processed-signal set is the primary inputs plus their outputs,
the signal environment binds exactly those signals, and every binding is a
valid diagram denoting its signal's reference value. -/
def LoopInv (nl : Netlist) (a : String → Bool) (benvF : List (String × Bool))
    (done : List Gate) (bs : BState) : Prop :=
  Inv nl.inputs bs.store ∧
  (∀ g ∈ done, g ∈ nl.gates) ∧
  (done.map Gate.output).Nodup ∧
  bs.processed = (nl.inputs ++ done.map Gate.output).toFinset ∧
  (∀ x, (getSignalBDD bs.env x).isSome ↔ (x ∈ nl.inputs ∨ x ∈ done.map Gate.output)) ∧
  EnvVals bs.store bs.env benvF a

/-- Readiness is monotone in the processed-signal set. -/
theorem gateReady_mono {inputs : List String} {p q : Finset String} (hpq : p ⊆ q) {g : Gate}
    (h : gateReady inputs p g) : gateReady inputs q g := by
  intro x hx
  rcases h x hx with h1 | h1
  · exact Or.inl (hpq h1)
  · exact Or.inr h1

/-- Processing one ready, not-yet-processed gate preserves the scheduler
invariant: the gate's inputs are bound, so `evaluateGate` returns a non-null
diagram denoting the gate's reference output value. -/
theorem loopInv_step (nl : Netlist) (a : String → Bool) (benvF : List (String × Bool))
    (done : List Gate) (bs : BState) (g : Gate)
    (hkinds : ∀ g' ∈ nl.gates, g'.type ∈ knownKinds ∧ g'.inputs ≠ [])
    (hLI : LoopInv nl a benvF done bs)
    (hg : g ∈ nl.gates)
    (hout : g.output ∉ bs.processed)
    (hready : gateReady nl.inputs bs.processed g)
    (hval : (alookup benvF g.output).getD false = evalGateBool benvF g) :
    LoopInv nl a benvF (done ++ [g])
      ⟨setSignalBDD bs.env g.output (evalGate nl.inputs bs.store bs.env g).1,
       (evalGate nl.inputs bs.store bs.env g).2,
       insert g.output bs.processed⟩ := by
  obtain ⟨hInv, hdone, hnd, hproc, hdom, hvals⟩ := hLI
  have hbound : ∀ x ∈ g.inputs, (getSignalBDD bs.env x).isSome := by
    intro x hx
    rcases hready x hx with h | h
    · rw [hproc] at h
      rw [hdom x]
      simpa [List.mem_append] using List.mem_toFinset.mp h
    · rw [hdom x]
      exact Or.inl h
  obtain ⟨hExt, hInv', r, hr, hvalr, hevalr⟩ :=
    evalGate_specB nl.inputs a bs.store bs.env benvF g hInv hvals
      (hkinds g hg).1 (hkinds g hg).2 hbound
  have houtd : g.output ∉ done.map Gate.output := by
    intro hmem
    apply hout
    rw [hproc]
    exact List.mem_toFinset.mpr (List.mem_append.mpr (Or.inr hmem))
  refine ⟨hInv', ?_, ?_, ?_, ?_, ?_⟩
  · intro g' hg'
    rcases List.mem_append.mp hg' with h | h
    · exact hdone g' h
    · rw [List.mem_singleton.mp h]
      exact hg
  · rw [List.map_append]
    refine List.Nodup.append hnd (by simp) ?_
    intro z hz1 hz2
    rw [List.map_singleton, List.mem_singleton] at hz2
    exact houtd (hz2 ▸ hz1)
  · rw [hproc]
    ext z
    simp only [Finset.mem_insert, List.mem_toFinset, List.mem_append, List.map_append,
      List.map_singleton, List.mem_singleton]
    tauto
  · intro x
    rw [getSignalBDD_set]
    by_cases hgx : g.output = x
    · rw [if_pos hgx, hr]
      simp only [Option.isSome_some, true_iff, List.map_append, List.mem_append,
        List.map_singleton, List.mem_singleton]
      exact Or.inr (Or.inr hgx.symm)
    · rw [if_neg hgx, hdom x, List.map_append, List.mem_append, List.map_singleton,
        List.mem_singleton]
      constructor
      · rintro (h | h)
        · exact Or.inl h
        · exact Or.inr (Or.inl h)
      · rintro (h | (h | h))
        · exact Or.inl h
        · exact Or.inr h
        · exact absurd h.symm hgx
  · intro x m hx
    rw [getSignalBDD_set] at hx
    by_cases hgx : g.output = x
    · rw [if_pos hgx, hr] at hx
      obtain rfl : r = m := by simpa using hx
      refine ⟨hvalr, ?_⟩
      rw [hevalr, ← hgx, hval]
    · rw [if_neg hgx] at hx
      obtain ⟨h1, h2⟩ := hvals x m hx
      exact ⟨Ext.validRef hInv hExt h1,
        by rw [evalB_ext hInv.childLt hExt a (ValidRef_lt hInv h1)]; exact h2⟩

/-- One pass of the `while` loop, over an arbitrary suffix of the gate list
and from an arbitrary invariant state: some sublist `newdone` of gates gets
processed, the invariant is preserved, the progress flag is set exactly when
something was processed, and if any visited gate was unprocessed and ready
at the start of the pass then the pass processes at least one gate. -/
theorem pass_general (nl : Netlist) (a : String → Bool) (benvF : List (String × Bool))
    (hkinds : ∀ g' ∈ nl.gates, g'.type ∈ knownKinds ∧ g'.inputs ≠ [])
    (hvals : ∀ g ∈ nl.gates, (alookup benvF g.output).getD false = evalGateBool benvF g) :
    ∀ (gs : List Gate) (bs : BState) (flag : Bool) (done : List Gate),
      LoopInv nl a benvF done bs →
      (∀ g ∈ gs, g ∈ nl.gates) →
      (gs.map Gate.output).Nodup →
      ∃ newdone bs',
        List.foldl (passStep nl.inputs nl.inputs) (bs, flag) gs =
          (bs', flag || !newdone.isEmpty) ∧
        LoopInv nl a benvF (done ++ newdone) bs' ∧
        bs.processed ⊆ bs'.processed ∧
        (∀ g ∈ gs, g.output ∉ bs.processed → gateReady nl.inputs bs.processed g →
          newdone ≠ []) := by
  intro gs
  induction gs with
  | nil =>
    intro bs flag done hLI _ _
    refine ⟨[], bs, ?_, ?_, Finset.Subset.refl _, ?_⟩
    · simp
    · rw [List.append_nil]
      exact hLI
    · intro g hg
      exact absurd hg (List.not_mem_nil g)
  | cons g gs ih =>
    intro bs flag done hLI hmem hnd
    have hnds : g.output ∉ gs.map Gate.output ∧ (gs.map Gate.output).Nodup :=
      List.nodup_cons.mp (by simpa using hnd)
    by_cases hcond : g.output ∉ bs.processed ∧ gateReady nl.inputs bs.processed g
    · have hstep : passStep nl.inputs nl.inputs (bs, flag) g =
          (⟨setSignalBDD bs.env g.output (evalGate nl.inputs bs.store bs.env g).1,
            (evalGate nl.inputs bs.store bs.env g).2,
            insert g.output bs.processed⟩, true) := by
        simp only [passStep]
        rw [if_pos hcond]
      have hLI1 := loopInv_step nl a benvF done bs g hkinds hLI
        (hmem g (List.mem_cons_self _ _)) hcond.1 hcond.2
        (hvals g (hmem g (List.mem_cons_self _ _)))
      obtain ⟨newdone, bs', hfold, hLI', hsub, _⟩ :=
        ih _ true (done ++ [g]) hLI1 (fun g' hg' => hmem g' (List.mem_cons_of_mem _ hg'))
          hnds.2
      refine ⟨g :: newdone, bs', ?_, ?_, ?_, ?_⟩
      · show List.foldl (passStep nl.inputs nl.inputs)
            (passStep nl.inputs nl.inputs (bs, flag) g) gs =
          (bs', flag || !(g :: newdone).isEmpty)
        rw [hstep, hfold]
        simp
      · rw [List.append_assoc, List.singleton_append] at hLI'
        exact hLI'
      · exact Finset.Subset.trans (Finset.subset_insert _ _) hsub
      · intro g' _ _ _
        exact List.cons_ne_nil g newdone
    · have hstep : passStep nl.inputs nl.inputs (bs, flag) g = (bs, flag) := by
        simp only [passStep]
        rw [if_neg hcond]
      obtain ⟨newdone, bs', hfold, hLI', hsub, hprog⟩ :=
        ih bs flag done hLI (fun g' hg' => hmem g' (List.mem_cons_of_mem _ hg')) hnds.2
      refine ⟨newdone, bs', ?_, hLI', hsub, ?_⟩
      · show List.foldl (passStep nl.inputs nl.inputs)
            (passStep nl.inputs nl.inputs (bs, flag) g) gs =
          (bs', flag || !newdone.isEmpty)
        rw [hstep, hfold]
      · intro g' hg' hout' hready'
        rcases List.mem_cons.mp hg' with rfl | h
        · exact absurd ⟨hout', hready'⟩ hcond
        · exact hprog g' h hout' hready'

/-- Schedulability: while a dependency-orderable gate list has an
unprocessed gate, it has an unprocessed gate that is *ready* (the first
unprocessed gate of the dependency order). -/
theorem exists_ready (inputs : List String) :
    ∀ (gs : List Gate) (avail : List String) (proc : Finset String),
      topoOk avail gs = true →
      (∀ x ∈ avail, x ∈ proc ∨ x ∈ inputs) →
      (∃ g ∈ gs, g.output ∉ proc) →
      ∃ g ∈ gs, g.output ∉ proc ∧ gateReady inputs proc g := by
  intro gs
  induction gs with
  | nil =>
    intro avail proc _ _ hex
    obtain ⟨g, hg, _⟩ := hex
    exact absurd hg (List.not_mem_nil g)
  | cons g0 tail ih =>
    intro avail proc htopo havail hex
    obtain ⟨hin0, htail⟩ := topoOk_cons_iff.mp htopo
    by_cases h0 : g0.output ∈ proc
    · have hex' : ∃ g ∈ tail, g.output ∉ proc := by
        obtain ⟨g, hg, hgp⟩ := hex
        rcases List.mem_cons.mp hg with rfl | h
        · exact absurd h0 hgp
        · exact ⟨g, h, hgp⟩
      have havail' : ∀ x ∈ g0.output :: avail, x ∈ proc ∨ x ∈ inputs := by
        intro x hx
        rcases List.mem_cons.mp hx with rfl | h
        · exact Or.inl h0
        · exact havail x h
      obtain ⟨g, hg, hgp, hgr⟩ := ih (g0.output :: avail) proc htail havail' hex'
      exact ⟨g, List.mem_cons_of_mem _ hg, hgp, hgr⟩
    · refine ⟨g0, List.mem_cons_self _ _, h0, ?_⟩
      intro x hx
      exact havail x (hin0 x hx)

/-- Correctness of the `while` loop of `processGates` on a schedulable
netlist: while gates are unprocessed some gate is ready, so each pass makes
progress, the fallback pass is never taken, and the loop ends with every
gate processed and the invariant intact. -/
theorem loop_all (nl : Netlist) (a : String → Bool) (benvF : List (String × Bool))
    (hkinds : ∀ g' ∈ nl.gates, g'.type ∈ knownKinds ∧ g'.inputs ≠ [])
    (hvals : ∀ g ∈ nl.gates, (alookup benvF g.output).getD false = evalGateBool benvF g)
    (hndIn : nl.inputs.Nodup) (hndOut : (nl.gates.map Gate.output).Nodup)
    (hdisj : ∀ g ∈ nl.gates, g.output ∉ nl.inputs)
    (gs' : List Gate) (hperm : List.Perm gs' nl.gates)
    (htopo : topoOk nl.inputs gs' = true) :
    ∀ (fuel : Nat) (done : List Gate) (bs : BState),
      LoopInv nl a benvF done bs →
      nl.gates.length - done.length < fuel →
      ∃ done', LoopInv nl a benvF done'
          (processLoop nl.inputs nl.inputs nl.gates fuel bs) ∧
        ∀ g ∈ nl.gates, g.output ∈
          (processLoop nl.inputs nl.inputs nl.gates fuel bs).processed := by
  intro fuel
  induction fuel with
  | zero =>
    intro done bs _ hlt
    omega
  | succ fuel ih =>
    intro done bs hLI hlt
    obtain ⟨hInv, hdone, hnd, hproc, hdom, hvalsE⟩ := hLI
    have hdoneIn : ∀ z ∈ done.map Gate.output, z ∉ nl.inputs := by
      intro z hz hzin
      obtain ⟨g, hg, hgz⟩ := List.mem_map.mp hz
      exact hdisj g (hdone g hg) (hgz ▸ hzin)
    have hndApp : (nl.inputs ++ done.map Gate.output).Nodup := by
      rw [List.nodup_append]
      exact ⟨hndIn, hnd, fun x hx hx2 => hdoneIn x hx2 hx⟩
    have hcard : bs.processed.card = nl.inputs.length + done.length := by
      rw [hproc, List.toFinset_card_of_nodup hndApp]
      simp
    have hsubout : ∀ z ∈ done.map Gate.output, z ∈ nl.gates.map Gate.output := by
      intro z hz
      obtain ⟨g, hg, hgz⟩ := List.mem_map.mp hz
      exact hgz ▸ List.mem_map.mpr ⟨g, hdone g hg, rfl⟩
    have hlen_le : done.length ≤ nl.gates.length := by
      have h1 : (done.map Gate.output).toFinset ⊆ (nl.gates.map Gate.output).toFinset := by
        intro z hz
        exact List.mem_toFinset.mpr (hsubout z (List.mem_toFinset.mp hz))
      have h2 := Finset.card_le_card h1
      rw [List.toFinset_card_of_nodup hnd, List.toFinset_card_of_nodup hndOut] at h2
      simpa using h2
    by_cases hall : done.length = nl.gates.length
    · have hcond : ¬ bs.processed.card < nl.gates.length + nl.inputs.length := by
        rw [hcard]
        omega
      have hres : processLoop nl.inputs nl.inputs nl.gates (fuel + 1) bs = bs := by
        show (if bs.processed.card < nl.gates.length + nl.inputs.length then _ else _) = _
        rw [if_neg hcond]
      rw [hres]
      refine ⟨done, ⟨hInv, hdone, hnd, hproc, hdom, hvalsE⟩, ?_⟩
      have hsetEq : (done.map Gate.output).toFinset =
          (nl.gates.map Gate.output).toFinset := by
        apply Finset.eq_of_subset_of_card_le
        · intro z hz
          exact List.mem_toFinset.mpr (hsubout z (List.mem_toFinset.mp hz))
        · rw [List.toFinset_card_of_nodup hnd, List.toFinset_card_of_nodup hndOut]
          simp [hall]
      intro g hg
      rw [hproc]
      refine List.mem_toFinset.mpr (List.mem_append.mpr (Or.inr ?_))
      have hmem : g.output ∈ (nl.gates.map Gate.output).toFinset :=
        List.mem_toFinset.mpr (List.mem_map.mpr ⟨g, hg, rfl⟩)
      rw [← hsetEq] at hmem
      exact List.mem_toFinset.mp hmem
    · have hlt2 : done.length < nl.gates.length := lt_of_le_of_ne hlen_le hall
      have hcond : bs.processed.card < nl.gates.length + nl.inputs.length := by
        rw [hcard]
        omega
      have hex : ∃ g ∈ nl.gates, g.output ∉ bs.processed := by
        by_contra hcon
        push_neg at hcon
        have hsub2 : ∀ z ∈ nl.gates.map Gate.output, z ∈ done.map Gate.output := by
          intro z hz
          obtain ⟨g, hg, hgz⟩ := List.mem_map.mp hz
          have hp := hcon g hg
          rw [hproc] at hp
          rcases List.mem_append.mp (List.mem_toFinset.mp hp) with h | h
          · exact absurd h (hdisj g hg)
          · exact hgz ▸ h
        have h1 : (nl.gates.map Gate.output).toFinset ⊆ (done.map Gate.output).toFinset := by
          intro z hz
          exact List.mem_toFinset.mpr (hsub2 z (List.mem_toFinset.mp hz))
        have h2 := Finset.card_le_card h1
        rw [List.toFinset_card_of_nodup hnd, List.toFinset_card_of_nodup hndOut] at h2
        simp only [List.length_map] at h2
        omega
      have hex' : ∃ g ∈ gs', g.output ∉ bs.processed := by
        obtain ⟨g, hg, hgp⟩ := hex
        exact ⟨g, hperm.mem_iff.mpr hg, hgp⟩
      obtain ⟨g₁, hg₁, hg₁p, hg₁r⟩ := exists_ready nl.inputs gs' nl.inputs bs.processed
        htopo (fun x hx => Or.inr hx) hex'
      have hg₁g : g₁ ∈ nl.gates := hperm.mem_iff.mp hg₁
      obtain ⟨newdone, bs', hfold, hLI', hsub, hprog⟩ :=
        pass_general nl a benvF hkinds hvals nl.gates bs false done
          ⟨hInv, hdone, hnd, hproc, hdom, hvalsE⟩ (fun g hg => hg) hndOut
      have hne : newdone ≠ [] := hprog g₁ hg₁g hg₁p hg₁r
      have hpass : passOnce nl.inputs nl.inputs nl.gates bs = (bs', true) := by
        show List.foldl (passStep nl.inputs nl.inputs) (bs, false) nl.gates = (bs', true)
        rw [hfold]
        have hb : newdone.isEmpty = false := by
          simp [List.isEmpty_iff, hne]
        rw [hb, Bool.false_or]
        rfl
      have hres : processLoop nl.inputs nl.inputs nl.gates (fuel + 1) bs =
          processLoop nl.inputs nl.inputs nl.gates fuel bs' := by
        show (if bs.processed.card < nl.gates.length + nl.inputs.length then
            (if (passOnce nl.inputs nl.inputs nl.gates bs).2 then
              processLoop nl.inputs nl.inputs nl.gates fuel
                (passOnce nl.inputs nl.inputs nl.gates bs).1
             else fallbackPass nl.inputs nl.gates
               (passOnce nl.inputs nl.inputs nl.gates bs).1)
          else bs) = processLoop nl.inputs nl.inputs nl.gates fuel bs'
        rw [if_pos hcond, hpass]
        rfl
      rw [hres]
      have hnewlen : 0 < newdone.length := List.length_pos.mpr hne
      have happlen : (done ++ newdone).length = done.length + newdone.length :=
        List.length_append done newdone
      exact ih (done ++ newdone) bs' hLI' (by omega)

/-- Claim C1: truth-table round trip.  For a well-formed acyclic netlist —
whose gates may be declared in *any* order — and any `{0,1}` assignment of
the primary inputs, the multi-pass scheduler of `processGates` evaluates
every gate, the builder binds a non-null diagram to the first declared
output, and evaluating that diagram (descending to `low` on `0` and `high`
on `1`, terminating at the terminals) yields exactly the value of direct
gate simulation: the Boolean evaluation of the same gates along any
dependency-respecting ordering `gs'` of the gate list (all such orderings
must therefore agree). -/
theorem robdd_C1_truth_table (nl : Netlist) (n : Nat) (hwf : WellFormed nl)
    (a : String → Bool) :
    ∃ r, (buildROBDD nl (mkContext n)).1 = some r ∧
      ∀ gs', List.Perm gs' nl.gates → topoOk nl.inputs gs' = true →
        evalB (buildROBDD nl (mkContext n)).2.2 r a =
          simulate ⟨nl.inputs, nl.outputs, gs'⟩ a := by
  obtain ⟨hndIn, hneIn, hndOut, hdisj, hkinds, hacyc, houts, hdrive⟩ := hwf
  have hInv0 : Inv nl.inputs (mkContext n) := Inv.mkContext nl.inputs n
  obtain ⟨hExtI, hInvI, hdomI, hvalsI⟩ :=
    initInputBDDs_specV nl.inputs a nl.inputs [] (mkContext n) hInv0
      (fun y m hy => by simp [getSignalBDD, alookup] at hy)
      (fun x hx => ⟨hx, hneIn x hx⟩)
  have hrun : ∀ gs', List.Perm gs' nl.gates → topoOk nl.inputs gs' = true →
      ∃ done', LoopInv nl a (boolFold gs' (inputVals nl.inputs a)) done'
          (processGates nl.inputs nl.inputs nl.gates
            ⟨(initInputBDDs nl.inputs [] (mkContext n)).1,
             (initInputBDDs nl.inputs [] (mkContext n)).2, nl.inputs.toFinset⟩) ∧
        ∀ g ∈ nl.gates, g.output ∈
          (processGates nl.inputs nl.inputs nl.gates
            ⟨(initInputBDDs nl.inputs [] (mkContext n)).1,
             (initInputBDDs nl.inputs [] (mkContext n)).2, nl.inputs.toFinset⟩).processed := by
    intro gs' hperm htopo
    have hinputVal : ∀ x ∈ nl.inputs,
        alookup (boolFold gs' (inputVals nl.inputs a)) x = some (a x) := by
      intro x hx
      have hno : ∀ g ∈ gs', g.output ≠ x := by
        intro g hg he
        exact hdisj g (hperm.mem_iff.mp hg) (by rw [he]; exact hx)
      rw [boolFold_stable gs' _ x hno]
      exact inputVals_lookup a nl.inputs [] x hndIn hx
    have hndOut' : (gs'.map Gate.output).Nodup :=
      ((hperm.map Gate.output).nodup_iff).mpr hndOut
    have houtsIn : ∀ g ∈ gs', g.output ∉ nl.inputs :=
      fun g hg => hdisj g (hperm.mem_iff.mp hg)
    have hgateVal : ∀ g ∈ nl.gates,
        (alookup (boolFold gs' (inputVals nl.inputs a)) g.output).getD false =
          evalGateBool (boolFold gs' (inputVals nl.inputs a)) g := by
      intro g hg
      exact boolFold_gate_val gs' nl.inputs (inputVals nl.inputs a) htopo hndOut'
        houtsIn g (hperm.mem_iff.mpr hg)
    have hLI0 : LoopInv nl a (boolFold gs' (inputVals nl.inputs a)) []
        ⟨(initInputBDDs nl.inputs [] (mkContext n)).1,
         (initInputBDDs nl.inputs [] (mkContext n)).2, nl.inputs.toFinset⟩ := by
      refine ⟨hInvI, ?_, ?_, ?_, ?_, ?_⟩
      · intro g hg
        exact absurd hg (List.not_mem_nil g)
      · simp
      · simp
      · intro x
        rw [hdomI x]
        simp [getSignalBDD, alookup]
      · intro x m hx
        obtain ⟨h1, h2⟩ := hvalsI x m hx
        refine ⟨h1, ?_⟩
        have hxin : x ∈ nl.inputs := by
          have hs : (getSignalBDD (initInputBDDs nl.inputs [] (mkContext n)).1 x).isSome := by
            rw [hx]
            rfl
          rw [hdomI x] at hs
          rcases hs with h | h
          · exact h
          · simp [getSignalBDD, alookup] at h
        rw [h2, hinputVal x hxin]
        rfl
    exact loop_all nl a (boolFold gs' (inputVals nl.inputs a)) hkinds hgateVal hndIn hndOut
      hdisj gs' hperm htopo (nl.gates.length + 1) [] _ hLI0
      (by simp only [List.length_nil]; omega)
  obtain ⟨gs₀, hperm₀, htopo₀⟩ := hacyc
  obtain ⟨done₀, hLI₀, hall₀⟩ := hrun gs₀ hperm₀ htopo₀
  cases hout : nl.outputs with
  | nil => exact absurd hout houts
  | cons o os =>
    have hbuild : buildROBDD nl (mkContext n) =
        (getSignalBDD (processGates nl.inputs nl.inputs nl.gates
            ⟨(initInputBDDs nl.inputs [] (mkContext n)).1,
             (initInputBDDs nl.inputs [] (mkContext n)).2, nl.inputs.toFinset⟩).env o,
         (processGates nl.inputs nl.inputs nl.gates
            ⟨(initInputBDDs nl.inputs [] (mkContext n)).1,
             (initInputBDDs nl.inputs [] (mkContext n)).2, nl.inputs.toFinset⟩).env,
         (processGates nl.inputs nl.inputs nl.gates
            ⟨(initInputBDDs nl.inputs [] (mkContext n)).1,
             (initInputBDDs nl.inputs [] (mkContext n)).2, nl.inputs.toFinset⟩).store) := by
      simp only [buildROBDD, hout]
    obtain ⟨hInvF, hdoneF, hndF, hprocF, hdomF, hvalsF⟩ := hLI₀
    have hdriven : o ∈ nl.inputs ∨ o ∈ nl.gates.map Gate.output := by
      have h : nl.outputs.headD "" = o := by rw [hout]; rfl
      rw [h] at hdrive
      exact hdrive
    have hbound : (getSignalBDD (processGates nl.inputs nl.inputs nl.gates
        ⟨(initInputBDDs nl.inputs [] (mkContext n)).1,
         (initInputBDDs nl.inputs [] (mkContext n)).2, nl.inputs.toFinset⟩).env o).isSome := by
      rw [hdomF o]
      rcases hdriven with h | h
      · exact Or.inl h
      · obtain ⟨g, hg, hgo⟩ := List.mem_map.mp h
        right
        have hp := hall₀ g hg
        rw [hprocF] at hp
        rcases List.mem_append.mp (List.mem_toFinset.mp hp) with h2 | h2
        · exact absurd h2 (hdisj g hg)
        · exact hgo ▸ h2
    obtain ⟨r, hr⟩ := Option.isSome_iff_exists.mp hbound
    refine ⟨r, ?_, ?_⟩
    · rw [hbuild]
      exact hr
    · intro gs' hperm' htopo'
      obtain ⟨done', hLI', hall'⟩ := hrun gs' hperm' htopo'
      obtain ⟨hInv', hdone', hnd', hproc', hdom', hvals'⟩ := hLI'
      obtain ⟨hvalr, hevalr⟩ := hvals' o r hr
      rw [hbuild]
      show evalB (processGates nl.inputs nl.inputs nl.gates
          ⟨(initInputBDDs nl.inputs [] (mkContext n)).1,
           (initInputBDDs nl.inputs [] (mkContext n)).2, nl.inputs.toFinset⟩).store r a =
        simulate ⟨nl.inputs, o :: os, gs'⟩ a
      rw [hevalr]
      rfl

/-- Witness for C1 at an out-of-order netlist: `y = or(t, c)` is declared
before the gate `t = and(a, b)` that drives its first input, so the first
scheduler pass can only process the `and` gate and the `or` gate is picked
up by the second pass. -/
theorem robdd_C1_witness :
    ∃ r, (buildROBDD ⟨["a", "b", "c"], ["y"],
          [⟨"or", "y", ["t", "c"]⟩, ⟨"and", "t", ["a", "b"]⟩]⟩ (mkContext 0)).1 = some r ∧
      ∀ gs', List.Perm gs' [⟨"or", "y", ["t", "c"]⟩, ⟨"and", "t", ["a", "b"]⟩] →
        topoOk ["a", "b", "c"] gs' = true →
        evalB (buildROBDD ⟨["a", "b", "c"], ["y"],
            [⟨"or", "y", ["t", "c"]⟩, ⟨"and", "t", ["a", "b"]⟩]⟩ (mkContext 0)).2.2 r
          (fun _ => true) =
        simulate ⟨["a", "b", "c"], ["y"], gs'⟩ (fun _ => true) :=
  robdd_C1_truth_table ⟨["a", "b", "c"], ["y"],
      [⟨"or", "y", ["t", "c"]⟩, ⟨"and", "t", ["a", "b"]⟩]⟩ 0
    ⟨by decide, by decide, by decide, by decide, by decide,
     ⟨[⟨"and", "t", ["a", "b"]⟩, ⟨"or", "y", ["t", "c"]⟩], List.Perm.swap _ _ _, by decide⟩,
     by decide, by decide⟩
    (fun _ => true)

end Robdd
